import Mathlib

/-!
Sweep cut over a CSR graph.

A shallow embedding of `src/lib/sweepcut.cpp`.

* Vertex and edge indices (`vtype`, `itype`) are unbounded natural numbers: the
  statements concern inputs whose indices fit the index types, where no index
  arithmetic of the source wraps.  `ids[i] - offset` is truncated subtraction, which
  agrees with the source whenever `offset ≤ ids[i]`.
* Arrays are lists, read with `getD` (an out-of-range read, undefined in the source,
  yields 0) and written with `set`.
* `double` quantities (weights, degrees, scores, conductances) are exact rationals in
  `sweep_cut`.  `sweep_cut_fp` is the same sweep with a rounding function applied to
  the result of every arithmetic operation; with `round_double` (IEEE 754 binary64,
  round to nearest, ties to even) it computes the values of the compiled program.
* The call of `std::sort` is `std_sort`, the introsort of libstdc++ (GCC 12, headers
  `bits/stl_algo.h` and `bits/stl_heap.h`); `StdSort` is what the C++ standard
  guarantees of any implementation.
-/

namespace SweepCut

/-- Modelled from the spec: the declaration of the struct `sparserow`
(header `include/sweepcut.h`) is not among the sources; its fields are the ones
`sweepcut.cpp` assigns and reads: `m`, `n` (vertex counts), `ai` (row
offsets), `aj` (column indices), `a` (edge weights) and `offset` (index base). -/
structure sparserow where
  m : Nat
  n : Nat
  ai : List Nat
  aj : List Nat
  a : List ℚ
  offset : Nat

/-- The loop `for (j = lo; j < hi; j++) st = body st j`. -/
def forLoop {σ : Type} (lo hi : Nat) (body : σ → Nat → σ) (init : σ) : σ :=
  (List.range' lo (hi - lo)).foldl body init

/-- Function `get_degree`: the sum of the weights stored in the row of `id`. -/
def get_degree (rows : sparserow) (id : Nat) : ℚ :=
  forLoop (rows.ai.getD id 0 - rows.offset) (rows.ai.getD (id + 1) 0 - rows.offset)
    (fun d j => d + rows.a.getD j 0) 0

/-- The `unordered_map<vtype, size_t> rank`, as a finite partial map. -/
abbrev RankMap := Nat → Option Nat

/-- The empty map. -/
def RankMap.empty : RankMap := fun _ => none

/-- The assignment `rank[k] = r`. -/
def RankMap.assign (rank : RankMap) (k r : Nat) : RankMap :=
  fun x => if x = k then some r else rank x

/-- The call `rank.count(k)`. -/
def RankMap.count (rank : RankMap) (k : Nat) : Nat :=
  if (rank k).isSome then 1 else 0

/-- The read `rank[k]`; an absent key reads as the value-initialised `0`.  The source
reads `rank[neighbor]` only after `rank.count(neighbor) > 0` and `rank[v]` only for a
candidate `v`, so no read ever inserts a key. -/
def RankMap.read (rank : RankMap) (k : Nat) : Nat :=
  (rank k).getD 0

/-- First loop of `sweep_cut`: `rank[ids[i] - offset] = i + 1` for `i < num`. -/
def build_rank (rows : sparserow) (ids : List Nat) (num : Nat) : RankMap :=
  forLoop 0 num (fun rank i => rank.assign (ids.getD i 0 - rows.offset) (i + 1)) RankMap.empty

/-- Second loop of `sweep_cut`: the sum of the first `ai[m] - offset` weights. -/
def total_degree (rows : sparserow) : ℚ :=
  forLoop 0 (rows.ai.getD rows.m 0 - rows.offset) (fun t i => t + rows.a.getD i 0) 0

/-- The degree used for `v`: `get_degree` when `degrees == NULL`, else `degrees[v]`. -/
def vertex_degree (rows : sparserow) (degrees : Option (List ℚ)) (v : Nat) : ℚ :=
  match degrees with
  | none => get_degree rows v
  | some d => d.getD v 0

/-- The inner loop over the row of `v`, started from `cut_change = deg`.  (The source
holds `neighbor` in a `double`; the conversion back to `vtype` is the identity on
vertex ids.) -/
def cut_change (rows : sparserow) (rank : RankMap) (v : Nat) (deg : ℚ) : ℚ :=
  forLoop (rows.ai.getD v 0 - rows.offset) (rows.ai.getD (v + 1) 0 - rows.offset)
    (fun cc j =>
      let neighbor := rows.aj.getD j 0 - rows.offset
      if rank.count neighbor > 0 ∧ rank.read neighbor < rank.read v then
        cc - 2 * rows.a.getD j 0
      else cc)
    deg

/-- The value `cur_cond` computed from the running cut size and volume. -/
def cur_cond (curcutsize curvolume total : ℚ) : ℚ :=
  if curvolume = 0 ∨ total - curvolume = 0 then 1
  else curcutsize / min curvolume (total - curvolume)

/-- The local variables that the main loop of `sweep_cut` carries; `min_id` is
`none` while it is still uninitialised. -/
structure SweepState where
  curcutsize : ℚ
  curvolume : ℚ
  min_cond : ℚ
  min_id : Option Nat
deriving DecidableEq

/-- State at loop entry: `curcutsize = 0`, `curvolume = 0`, `min_cond = -1`. -/
def SweepState.init : SweepState := ⟨0, 0, -1, none⟩

/-- One iteration of the main loop of `sweep_cut`. -/
def sweep_step (rows : sparserow) (ids : List Nat) (degrees : Option (List ℚ))
    (rank : RankMap) (total : ℚ) (st : SweepState) (i : Nat) : SweepState :=
  let v := ids.getD i 0 - rows.offset
  let deg := vertex_degree rows degrees v
  let cc := cut_change rows rank v deg
  let curcutsize := st.curcutsize + cc
  let curvolume := st.curvolume + deg
  let cond := cur_cond curcutsize curvolume total
  if st.min_cond = -1 ∨ cond < st.min_cond then
    ⟨curcutsize, curvolume, cond, some i⟩
  else
    ⟨curcutsize, curvolume, st.min_cond, st.min_id⟩

/-- The main loop of `sweep_cut` run for `i = 0, …, k - 1`. -/
def sweep_loop (rows : sparserow) (ids : List Nat) (num : Nat) (degrees : Option (List ℚ))
    (k : Nat) : SweepState :=
  forLoop 0 k (sweep_step rows ids degrees (build_rank rows ids num) (total_degree rows))
    SweepState.init

/-- What a call of `sweep_cut` leaves behind: the output buffer, the value
stored through `ret_cond`, and the returned length. -/
structure SweepResult where
  results : List Nat
  ret_cond : ℚ
  actual_length : Nat
deriving DecidableEq

/-- Last loop of `sweep_cut`: `results[j] = ids[j]` for `j = 0, …, min_id`. -/
def copy_results (ids results : List Nat) (min_id : Nat) : List Nat :=
  forLoop 0 (min_id + 1) (fun res j => res.set j (ids.getD j 0)) results

/-- Function `sweep_cut`.  The result is `none` when `min_id` is read while
uninitialised (`num = 0`). -/
def sweep_cut (rows : sparserow) (ids results : List Nat) (num : Nat)
    (degrees : Option (List ℚ)) : Option SweepResult :=
  let st := sweep_loop rows ids num degrees num
  match st.min_id with
  | none => none
  | some min_id =>
    some
      { results := copy_results ids results min_id
        ret_cond := st.min_cond
        actual_length := min_id + 1 }

/-- Volume of the prefix `ids[0..i]`: the degrees the loop adds up to position `i`. -/
def prefix_volume (rows : sparserow) (ids : List Nat) (degrees : Option (List ℚ))
    (i : Nat) : ℚ :=
  ((List.range (i + 1)).map
    (fun p => vertex_degree rows degrees (ids.getD p 0 - rows.offset))).sum

/-- Cut size of the prefix `ids[0..i]`: the `cut_change` values up to position `i`. -/
def prefix_cut (rows : sparserow) (ids : List Nat) (num : Nat) (degrees : Option (List ℚ))
    (i : Nat) : ℚ :=
  ((List.range (i + 1)).map
    (fun p => cut_change rows (build_rank rows ids num) (ids.getD p 0 - rows.offset)
      (vertex_degree rows degrees (ids.getD p 0 - rows.offset)))).sum

/-- The per-prefix conductance `conductance_i` of step 3e. -/
def prefix_cond (rows : sparserow) (ids : List Nat) (num : Nat) (degrees : Option (List ℚ))
    (i : Nat) : ℚ :=
  cur_cond (prefix_cut rows ids num degrees i) (prefix_volume rows ids degrees i)
    (total_degree rows)

/-- The minimum tracker of the main loop on its own, fed the values `c 0, c 1, …`:
the pair `(min_cond, min_id)` after `k` iterations. -/
def track (c : Nat → ℚ) : Nat → ℚ × Option Nat
  | 0 => (-1, none)
  | k + 1 =>
    if (track c k).1 = -1 ∨ c k < (track c k).1 then (c k, some k) else track c k

/-- Function `sweepcut_without_sorting`: builds the `sparserow` and calls `sweep_cut`. -/
def sweepcut_without_sorting (ids results : List Nat) (num n : Nat) (ai aj : List Nat)
    (a : List ℚ) (offset : Nat) (degrees : Option (List ℚ)) : Option SweepResult :=
  sweep_cut { m := n, n := n, ai := ai, aj := aj, a := a, offset := offset }
    ids results num degrees

/-! ## The library sort

`std::sort` as libstdc++ implements it: `std::__introsort_loop` partitions around a
median of three while a range has more than 16 elements (falling back to heap sort
when the depth limit `2 * floor(log2 n)` runs out), then
`std::__final_insertion_sort` finishes.  Iterators are positions in a list.  The
library loops named "unguarded" have no bounds test, because a sentinel element
always stops them inside the array; their embeddings stop at the bounds of the
array, which changes nothing on a run of the library. -/

/-- The call `std::iter_swap(i, j)` on positions of an array. -/
def iter_swap {α : Type} [Inhabited α] (arr : List α) (i j : Nat) : List α :=
  (arr.set i (arr.getD j default)).set j (arr.getD i default)

/-- Library function `std::__move_median_to_first`. -/
def move_median_to_first {α : Type} [Inhabited α] (comp : α → α → Bool) (arr : List α)
    (result a b c : Nat) : List α :=
  if comp (arr.getD a default) (arr.getD b default) then
    if comp (arr.getD b default) (arr.getD c default) then iter_swap arr result b
    else if comp (arr.getD a default) (arr.getD c default) then iter_swap arr result c
    else iter_swap arr result a
  else if comp (arr.getD a default) (arr.getD c default) then iter_swap arr result a
  else if comp (arr.getD b default) (arr.getD c default) then iter_swap arr result c
  else iter_swap arr result b

/-- The scan `while (comp(first, pivot)) ++first` of `std::__unguarded_partition`.  The
library scan has no bounds test; here a scan that reaches the end of the array stops. -/
def scan_up {α : Type} [Inhabited α] (comp : α → α → Bool) (arr : List α) (pivot : Nat) :
    Nat → Nat → Nat
  | 0, first => first
  | fuel + 1, first =>
    if first < arr.length ∧ comp (arr.getD first default) (arr.getD pivot default) then
      scan_up comp arr pivot fuel (first + 1)
    else first

/-- The scan `while (comp(pivot, last)) --last` of `std::__unguarded_partition`; a scan
that reaches position 0 stops. -/
def scan_down {α : Type} [Inhabited α] (comp : α → α → Bool) (arr : List α) (pivot : Nat) :
    Nat → Nat
  | 0 => 0
  | last + 1 =>
    if comp (arr.getD pivot default) (arr.getD (last + 1) default) then
      scan_down comp arr pivot last
    else last + 1

/-- Library function `std::__unguarded_partition`; `fuel` bounds the iterations of the
outer loop. -/
def unguarded_partition {α : Type} [Inhabited α] (comp : α → α → Bool) (pivot : Nat) :
    Nat → List α → Nat → Nat → List α × Nat
  | 0, arr, first, _ => (arr, first)
  | fuel + 1, arr, first, last =>
    let first1 := scan_up comp arr pivot arr.length first
    let last1 := scan_down comp arr pivot (last - 1)
    if first1 < last1 then
      unguarded_partition comp pivot fuel (iter_swap arr first1 last1) (first1 + 1) last1
    else (arr, first1)

/-- Library function `std::__unguarded_partition_pivot`. -/
def unguarded_partition_pivot {α : Type} [Inhabited α] (comp : α → α → Bool) (arr : List α)
    (first last : Nat) : List α × Nat :=
  let mid := first + (last - first) / 2
  let arr1 := move_median_to_first comp arr first (first + 1) mid (last - 1)
  unguarded_partition comp first arr1.length arr1 (first + 1) last

/-- Library function `std::__push_heap`; `fuel` bounds the iterations of its loop. -/
def push_heap {α : Type} [Inhabited α] (comp : α → α → Bool) (first top : Nat) (value : α) :
    Nat → List α → Nat → List α
  | 0, arr, holeIndex => arr.set (first + holeIndex) value
  | fuel + 1, arr, holeIndex =>
    let parent := (holeIndex - 1) / 2
    if holeIndex > top ∧ comp (arr.getD (first + parent) default) value then
      push_heap comp first top value fuel
        (arr.set (first + holeIndex) (arr.getD (first + parent) default)) parent
    else arr.set (first + holeIndex) value

/-- The first loop of `std::__adjust_heap`: the hole moves down to a leaf.  Returns the
array, `holeIndex` and `secondChild`. -/
def adjust_heap_loop {α : Type} [Inhabited α] (comp : α → α → Bool) (first len : Nat) :
    Nat → List α → Nat → Nat → List α × Nat × Nat
  | 0, arr, holeIndex, secondChild => (arr, holeIndex, secondChild)
  | fuel + 1, arr, holeIndex, secondChild =>
    if secondChild < (len - 1) / 2 then
      let sc := 2 * (secondChild + 1)
      let sc1 :=
        if comp (arr.getD (first + sc) default) (arr.getD (first + (sc - 1)) default) then sc - 1
        else sc
      adjust_heap_loop comp first len fuel
        (arr.set (first + holeIndex) (arr.getD (first + sc1) default)) sc1 sc1
    else (arr, holeIndex, secondChild)

/-- Library function `std::__adjust_heap`.  (For `len = 0` the signed quotient
`(len - 2) / 2` is `-1`, so the second test needs `2 ≤ len`.) -/
def adjust_heap {α : Type} [Inhabited α] (comp : α → α → Bool) (arr : List α)
    (first holeIndex len : Nat) (value : α) : List α :=
  let topIndex := holeIndex
  let st := adjust_heap_loop comp first len len arr holeIndex holeIndex
  let arr1 := st.1
  let holeIndex1 := st.2.1
  let secondChild1 := st.2.2
  if len % 2 = 0 ∧ 2 ≤ len ∧ secondChild1 = (len - 2) / 2 then
    let sc := 2 * (secondChild1 + 1)
    push_heap comp first topIndex value len
      (arr1.set (first + holeIndex1) (arr1.getD (first + (sc - 1)) default)) (sc - 1)
  else
    push_heap comp first topIndex value len arr1 holeIndex1

/-- Library function `std::__pop_heap`. -/
def pop_heap {α : Type} [Inhabited α] (comp : α → α → Bool) (arr : List α)
    (first last result : Nat) : List α :=
  let value := arr.getD result default
  adjust_heap comp (arr.set result (arr.getD first default)) first 0 (last - first) value

/-- The loop of `std::__make_heap`, from `parent` down to 0. -/
def make_heap_loop {α : Type} [Inhabited α] (comp : α → α → Bool) (first len : Nat) :
    Nat → List α → List α
  | 0, arr => adjust_heap comp arr first 0 len (arr.getD first default)
  | parent + 1, arr =>
    make_heap_loop comp first len parent
      (adjust_heap comp arr first (parent + 1) len (arr.getD (first + (parent + 1)) default))

/-- Library function `std::__make_heap`. -/
def make_heap {α : Type} [Inhabited α] (comp : α → α → Bool) (arr : List α)
    (first last : Nat) : List α :=
  if last - first < 2 then arr
  else make_heap_loop comp first (last - first) ((last - first - 2) / 2) arr

/-- Library function `std::__sort_heap`; `fuel` bounds the iterations of its loop. -/
def sort_heap {α : Type} [Inhabited α] (comp : α → α → Bool) (first : Nat) :
    Nat → List α → Nat → List α
  | 0, arr, _ => arr
  | fuel + 1, arr, last =>
    if last - first > 1 then
      sort_heap comp first fuel (pop_heap comp arr first (last - 1) (last - 1)) (last - 1)
    else arr

/-- Library function `std::__heap_select`. -/
def heap_select {α : Type} [Inhabited α] (comp : α → α → Bool) (arr : List α)
    (first middle last : Nat) : List α :=
  (List.range' middle (last - middle)).foldl
    (fun arr i =>
      if comp (arr.getD i default) (arr.getD first default) then
        pop_heap comp arr first middle i
      else arr)
    (make_heap comp arr first middle)

/-- Library function `std::__partial_sort`. -/
def partial_sort {α : Type} [Inhabited α] (comp : α → α → Bool) (arr : List α)
    (first middle last : Nat) : List α :=
  sort_heap comp first (middle - first) (heap_select comp arr first middle last) middle

/-- Library function `std::__introsort_loop`; the recursion is on `depth_limit`, which
the library decrements in every iteration of its loop. -/
def introsort_loop {α : Type} [Inhabited α] (comp : α → α → Bool) :
    Nat → List α → Nat → Nat → List α
  | 0, arr, first, last =>
    if last - first > 16 then partial_sort comp arr first last last else arr
  | depth_limit + 1, arr, first, last =>
    if last - first > 16 then
      let p := unguarded_partition_pivot comp arr first last
      let arr1 := introsort_loop comp depth_limit p.1 p.2 last
      introsort_loop comp depth_limit arr1 first p.2
    else arr

/-- The loop of `std::__unguarded_linear_insert`, with `val` held aside and the hole at
`last`.  The library loop has no bounds test; here it stops at position 0. -/
def linear_insert_loop {α : Type} [Inhabited α] (comp : α → α → Bool) (val : α) :
    Nat → List α → List α
  | 0, arr => arr.set 0 val
  | next + 1, arr =>
    if comp val (arr.getD next default) then
      linear_insert_loop comp val next (arr.set (next + 1) (arr.getD next default))
    else arr.set (next + 1) val

/-- Library function `std::__unguarded_linear_insert`. -/
def unguarded_linear_insert {α : Type} [Inhabited α] (comp : α → α → Bool) (arr : List α)
    (last : Nat) : List α :=
  linear_insert_loop comp (arr.getD last default) last arr

/-- The call `std::move_backward(first, i, i + 1)`: `count` elements ending before
`last` are moved one position up, the last one first. -/
def move_backward {α : Type} [Inhabited α] : Nat → List α → Nat → List α
  | 0, arr, _ => arr
  | count + 1, arr, last =>
    move_backward count (arr.set last (arr.getD (last - 1) default)) (last - 1)

/-- Library function `std::__insertion_sort`. -/
def insertion_sort {α : Type} [Inhabited α] (comp : α → α → Bool) (arr : List α)
    (first last : Nat) : List α :=
  if first = last then arr
  else
    (List.range' (first + 1) (last - (first + 1))).foldl
      (fun arr i =>
        if comp (arr.getD i default) (arr.getD first default) then
          (move_backward (i - first) arr i).set first (arr.getD i default)
        else unguarded_linear_insert comp arr i)
      arr

/-- Library function `std::__unguarded_insertion_sort`. -/
def unguarded_insertion_sort {α : Type} [Inhabited α] (comp : α → α → Bool) (arr : List α)
    (first last : Nat) : List α :=
  (List.range' first (last - first)).foldl (fun arr i => unguarded_linear_insert comp arr i) arr

/-- Library function `std::__final_insertion_sort`. -/
def final_insertion_sort {α : Type} [Inhabited α] (comp : α → α → Bool) (arr : List α)
    (first last : Nat) : List α :=
  if last - first > 16 then
    unguarded_insertion_sort comp (insertion_sort comp arr first (first + 16)) (first + 16) last
  else insertion_sort comp arr first last

/-- Number of halvings that bring `n` below 2, with `fuel` bounding the count. -/
def halvings : Nat → Nat → Nat
  | 0, _ => 0
  | fuel + 1, n => if n < 2 then 0 else halvings fuel (n / 2) + 1

/-- The binary logarithm of `n ≥ 1`, rounded down. -/
def floor_log2 (n : Nat) : Nat :=
  halvings n n

/-- Library function `std::sort` on a whole array (`std::__sort` of libstdc++). -/
def std_sort {α : Type} [Inhabited α] (comp : α → α → Bool) (arr : List α) : List α :=
  if arr.length = 0 then arr
  else
    final_insertion_sort comp
      (introsort_loop comp (floor_log2 arr.length * 2) arr 0 arr.length) 0 arr.length


/-- The requirements on a comparator that the sort relies on: it is asymmetric, and
"not ordered before" is transitive (a strict weak ordering). -/
def StrictWeak {α : Type} (comp : α → α → Bool) : Prop :=
  (∀ x y, comp x y = true → comp y x = false) ∧
  (∀ x y z, comp x y = false → comp y z = false → comp x z = false)

/-- Comparator `myobject`: `i.second > j.second`. -/
def myobject (i j : Nat × ℚ) : Bool :=
  decide (i.2 > j.2)

/-- What the C++ standard guarantees of every implementation of the library call
`std::sort(first, last, myobject)`: the range is permuted so that the comparator
orders no element before one that precedes it.  The relative order of elements with
equal scores is left open.  `stdSort_std_sort` proves it of `std_sort`. -/
def StdSort (sort : List (Nat × ℚ) → List (Nat × ℚ)) : Prop :=
  ∀ l, (sort l).Perm l ∧ (sort l).Pairwise (fun x y => myobject y x = false)

/-- First loop of `sweepcut_with_sorting`: `possible_nodes[i] = (ids[i], value[i])`
written into a fresh array of `num` pairs. -/
def pair_nodes (value : List ℚ) (ids : List Nat) (num : Nat) : List (Nat × ℚ) :=
  forLoop 0 num (fun nodes i => nodes.set i (ids.getD i 0, value.getD i 0))
    (List.replicate num (0, 0))

/-- Second loop of `sweepcut_with_sorting`: `newids[i] = possible_nodes[i].first`. -/
def project_ids (nodes : List (Nat × ℚ)) (num : Nat) : List Nat :=
  forLoop 0 num (fun newids i => newids.set i (nodes.getD i (0, 0)).1)
    (List.replicate num 0)

/-- Function `sweepcut_with_sorting`: pairs the ids with the scores, sorts the pairs
with `std::sort` and the comparator `myobject`, projects the ids into `newids` and
calls `sweep_cut` on them. -/
def sweepcut_with_sorting (value : List ℚ) (ids results : List Nat) (num n : Nat)
    (ai aj : List Nat) (a : List ℚ) (offset : Nat) (degrees : Option (List ℚ)) :
    Option SweepResult :=
  let possible_nodes := std_sort myobject (pair_nodes value ids num)
  let newids := project_ids possible_nodes num
  sweep_cut { m := n, n := n, ai := ai, aj := aj, a := a, offset := offset }
    newids results num degrees

/-- The path `0 - 1 - 2 - 3` with unit weights, followed by thirteen vertices without
edges: seventeen vertices in all. -/
def seventeenGraph : sparserow :=
  { m := 17, n := 17,
    ai := [0, 1, 3, 5, 6, 6, 6, 6, 6, 6, 6, 6, 6, 6, 6, 6, 6, 6],
    aj := [1, 0, 2, 1, 3, 2],
    a := [1, 1, 1, 1, 1, 1],
    offset := 0 }

/-- A well-formed CSR graph.  The invariants that the data model states (`ai` is
non-decreasing, `ai[m] - offset` is the common length of `aj` and `a`, every column
index is a vertex id in `[offset, offset + m)`), together with the CSR conventions
that `ai` has `m + 1` entries and starts at `offset`, and `n = m` as both entry points
set it. -/
def WellFormed (rows : sparserow) : Prop :=
  rows.n = rows.m ∧
  rows.ai.length = rows.m + 1 ∧
  rows.ai.getD 0 0 = rows.offset ∧
  (∀ v, v < rows.m → rows.ai.getD v 0 ≤ rows.ai.getD (v + 1) 0) ∧
  rows.ai.getD rows.m 0 - rows.offset = rows.aj.length ∧
  rows.aj.length = rows.a.length ∧
  (∀ j, j < rows.aj.length →
    rows.offset ≤ rows.aj.getD j 0 ∧ rows.aj.getD j 0 < rows.offset + rows.m)

instance (rows : sparserow) : Decidable (WellFormed rows) := by
  unfold WellFormed
  infer_instance

/-- Every stored edge weight is non-negative. -/
def NonNegWeights (rows : sparserow) : Prop :=
  ∀ j, j < rows.a.length → 0 ≤ rows.a.getD j 0

instance (rows : sparserow) : Decidable (NonNegWeights rows) := by
  unfold NonNegWeights
  infer_instance

/-- The first `num` entries of `ids` exist and are vertex ids of the graph. -/
def ValidIds (rows : sparserow) (ids : List Nat) (num : Nat) : Prop :=
  num ≤ ids.length ∧
  ∀ i, i < num → rows.offset ≤ ids.getD i 0 ∧ ids.getD i 0 < rows.offset + rows.m

instance (rows : sparserow) (ids : List Nat) (num : Nat) :
    Decidable (ValidIds rows ids num) := by
  unfold ValidIds
  infer_instance

/-- The first `num` entries of `ids` are pairwise different. -/
def DistinctIds (ids : List Nat) (num : Nat) : Prop :=
  ∀ p, p < num → ∀ q, q < num → ids.getD p 0 = ids.getD q 0 → p = q

instance (ids : List Nat) (num : Nat) : Decidable (DistinctIds ids num) := by
  unfold DistinctIds
  infer_instance

/-- The test of the inner loop: `rank.count(u) > 0 && rank[u] < rank[v]`. -/
def earlier (rank : RankMap) (u v : Nat) : Prop :=
  rank.count u > 0 ∧ rank.read u < rank.read v

instance (rank : RankMap) (u v : Nat) : Decidable (earlier rank u v) := by
  unfold earlier
  infer_instance

/-- The offset-normalised ids at the first `num` positions are pairwise different. -/
def InjectiveIds (rows : sparserow) (ids : List Nat) (num : Nat) : Prop :=
  ∀ p, p < num → ∀ q, q < num →
    ids.getD p 0 - rows.offset = ids.getD q 0 - rows.offset → p = q

/-- Weight of the edge from `v` to `u` (internal ids): the sum of the weights of the
entries of the row of `v` whose column is `u`. -/
def edge_weight (rows : sparserow) (v u : Nat) : ℚ :=
  ((List.range' (rows.ai.getD v 0 - rows.offset)
      ((rows.ai.getD (v + 1) 0 - rows.offset) - (rows.ai.getD v 0 - rows.offset))).map
    (fun j => if rows.aj.getD j 0 - rows.offset = u then rows.a.getD j 0 else 0)).sum

/-- The adjacency is symmetric: `w(v, u) = w(u, v)` for all vertices. -/
def SymmetricGraph (rows : sparserow) : Prop :=
  ∀ v, v < rows.m → ∀ u, u < rows.m → edge_weight rows v u = edge_weight rows u v

instance (rows : sparserow) : Decidable (SymmetricGraph rows) := by
  unfold SymmetricGraph
  infer_instance

/-- No vertex carries weight on an edge to itself. -/
def NoSelfLoops (rows : sparserow) : Prop :=
  ∀ v, v < rows.m → edge_weight rows v v = 0

instance (rows : sparserow) : Decidable (NoSelfLoops rows) := by
  unfold NoSelfLoops
  infer_instance

/-- Textbook weighted degree of `v`: the total weight of the edges at `v`. -/
def weighted_degree (rows : sparserow) (v : Nat) : ℚ :=
  ((List.range rows.m).map (fun u => edge_weight rows v u)).sum

/-- Textbook volume of the vertex set `S`: the sum of the weighted degrees in `S`. -/
def volume (rows : sparserow) (S : List Nat) : ℚ :=
  ((List.range rows.m).map (fun v => if v ∈ S then weighted_degree rows v else 0)).sum

/-- Textbook volume of the complement of `S`. -/
def complement_volume (rows : sparserow) (S : List Nat) : ℚ :=
  ((List.range rows.m).map (fun v => if v ∈ S then 0 else weighted_degree rows v)).sum

/-- Textbook cut of `S`: the total weight of the edges from `S` to its complement. -/
def cut_weight (rows : sparserow) (S : List Nat) : ℚ :=
  ((List.range rows.m).map (fun v =>
    if v ∈ S then
      ((List.range rows.m).map (fun u => if u ∈ S then 0 else edge_weight rows v u)).sum
    else 0)).sum

/-- Textbook conductance `cut(S) / min(vol(S), vol(V \ S))`, with the value 1 when
one of the two volumes is zero. -/
def textbook_conductance (rows : sparserow) (S : List Nat) : ℚ :=
  if volume rows S = 0 ∨ complement_volume rows S = 0 then 1
  else cut_weight rows S / min (volume rows S) (complement_volume rows S)

/-- The vertex set of the prefix of length `k`: the internal ids of `ids[0..k)`. -/
def prefix_set (rows : sparserow) (ids : List Nat) (k : Nat) : List Nat :=
  (ids.take k).map (fun x => x - rows.offset)

/-- The supplied degree vector, when there is one, holds the row sum of every vertex. -/
def TrueDegrees (rows : sparserow) (degrees : Option (List ℚ)) : Prop :=
  ∀ d, degrees = some d → ∀ v, v < rows.m → d.getD v 0 = get_degree rows v

instance (rows : sparserow) (degrees : Option (List ℚ)) :
    Decidable (TrueDegrees rows degrees) :=
  match degrees with
  | none => isTrue (fun _ h => nomatch h)
  | some d =>
    decidable_of_iff (∀ v, v < rows.m → d.getD v 0 = get_degree rows v)
      ⟨fun h _ hd => Option.some.inj hd ▸ h, fun h => h d rfl⟩

/-- The path graph 0-1-2-3 with unit weights, zero-based. -/
def pathGraph : sparserow :=
  { m := 4, n := 4, ai := [0, 1, 3, 5, 6], aj := [1, 0, 2, 1, 3, 2],
    a := [1, 1, 1, 1, 1, 1], offset := 0 }

/-- A well-formed CSR graph that is not symmetric: the rows of vertices 1 and 2
each hold one entry of weight 1 pointing to vertex 0, whose own row is empty. -/
def fanInGraph : sparserow :=
  { m := 3, n := 3, ai := [0, 0, 1, 2], aj := [0, 0], a := [1, 1], offset := 0 }

/-- A symmetric graph with a self-loop: edges 0-1 and 1-2 of weight 1 stored in both
rows, and an entry `0 → 0` of weight 1. -/
def loopGraph : sparserow :=
  { m := 3, n := 3, ai := [0, 2, 4, 5], aj := [0, 1, 0, 2, 1], a := [1, 1, 1, 1, 1],
    offset := 0 }

/-- A well-formed CSR graph without self-loops that is not symmetric: entries
`0 → 1` of weight 1 and `2 → 0` of weight 2. -/
def oneWayGraph : sparserow :=
  { m := 3, n := 3, ai := [0, 1, 1, 2], aj := [1, 0], a := [1, 2], offset := 0 }

/-- A well-formed CSR graph that is not symmetric, on four vertices: entries
`1 → 0` of weight 2, `2 → 3` of weight 1 and `3 → 3` of weight 1. -/
def tieGraph : sparserow :=
  { m := 4, n := 4, ai := [0, 0, 1, 2, 3], aj := [0, 3, 3], a := [2, 1, 1], offset := 0 }

/-- The one-based version of a zero-based graph: every entry of `ai` and of `aj` is
increased by 1 and `offset` is 1; the weights are kept. -/
def one_based (rows : sparserow) : sparserow :=
  { rows with
    ai := rows.ai.map (fun x => x + 1)
    aj := rows.aj.map (fun x => x + 1)
    offset := 1 }

/-- The invariants of the CSR arrays that the data model states: `ai` is
non-decreasing over the `m` rows and `ai[m] - offset` is the common length of `aj` and
`a`. -/
def StatedInvariants (rows : sparserow) : Prop :=
  (∀ v, v < rows.m → rows.ai.getD v 0 ≤ rows.ai.getD (v + 1) 0) ∧
  rows.ai.getD rows.m 0 - rows.offset = rows.aj.length ∧
  rows.aj.length = rows.a.length

instance (rows : sparserow) : Decidable (StatedInvariants rows) := by
  unfold StatedInvariants
  infer_instance

/-- A one-vertex graph whose row offsets start after the base offset: `ai = [1, 2]`
with `offset = 0`, so the row of vertex 0 is the entry at index 1 and the entry at
index 0 belongs to no row. -/
def gapGraph : sparserow :=
  { m := 1, n := 1, ai := [1, 2], aj := [0, 0], a := [5, 7], offset := 0 }

/-- Total weight of the entries of the row of `v` whose neighbor passes the test of
the inner loop, that is, is a candidate of smaller rank than `v`. -/
def earlier_weight (rows : sparserow) (rank : RankMap) (v : Nat) : ℚ :=
  ((List.range' (rows.ai.getD v 0 - rows.offset)
      ((rows.ai.getD (v + 1) 0 - rows.offset) - (rows.ai.getD v 0 - rows.offset))).map
    (fun j =>
      if earlier rank (rows.aj.getD j 0 - rows.offset) v then rows.a.getD j 0 else 0)).sum

/-- The caller's memory that a call of `sweep_cut` can reach through its pointer
arguments: the arrays `ids`, `results`, `ai`, `aj`, `a`, `degrees` and the cell
`*ret_cond`. -/
structure CallerMemory where
  ids : List Nat
  results : List Nat
  ai : List Nat
  aj : List Nat
  a : List ℚ
  degrees : Option (List ℚ)
  ret_cond : ℚ

/-- A call of `sweep_cut` as a transition of the caller's memory: the only stores of
the source through its arguments are `results[j] = ids[j]` and `*ret_cond = min_cond`
(the map `rank` and the scalars are locals).  Returns the memory after the call and
the returned length. -/
def sweep_cut_call (mem : CallerMemory) (m n offset num : Nat) : Option (CallerMemory × Nat) :=
  match sweep_cut { m := m, n := n, ai := mem.ai, aj := mem.aj, a := mem.a, offset := offset }
      mem.ids mem.results num mem.degrees with
  | none => none
  | some r => some ({ mem with results := r.results, ret_cond := r.ret_cond }, r.actual_length)

/-- A graph on two vertices without any edge. -/
def edgelessGraph : sparserow :=
  { m := 2, n := 2, ai := [0, 0, 0], aj := [], a := [], offset := 0 }

/-- Total weight of the entries of the row of `ids[i]` whose neighbor `u` is a
candidate placed before position `i` and is different from `ids[i]` itself. -/
def earlier_neighbor_weight (rows : sparserow) (ids : List Nat) (i : Nat) : ℚ :=
  ((List.range' (rows.ai.getD (ids.getD i 0 - rows.offset) 0 - rows.offset)
      ((rows.ai.getD (ids.getD i 0 - rows.offset + 1) 0 - rows.offset)
        - (rows.ai.getD (ids.getD i 0 - rows.offset) 0 - rows.offset))).map
    (fun j =>
      if (∃ p, p < i ∧ ids.getD p 0 - rows.offset = rows.aj.getD j 0 - rows.offset) ∧
          rows.aj.getD j 0 - rows.offset ≠ ids.getD i 0 - rows.offset
      then rows.a.getD j 0 else 0)).sum

/-- Total self-loop weight of the vertices in `S`. -/
def self_loop_weight (rows : sparserow) (S : List Nat) : ℚ :=
  ((List.range rows.m).map (fun v => if v ∈ S then edge_weight rows v v else 0)).sum

/-- The power `2^e` for an integer exponent. -/
def pow2 (e : Int) : ℚ :=
  if 0 ≤ e then ((2 ^ e.toNat : Nat) : ℚ) else 1 / ((2 ^ (-e).toNat : Nat) : ℚ)

/-- The binary exponent of `a > 0`: the `e` with `2^e ≤ a < 2^(e+1)`. -/
def binary_exponent (a : ℚ) : Int :=
  let e0 : Int := (floor_log2 a.num.natAbs : Int) - (floor_log2 a.den : Int)
  if a < pow2 e0 then e0 - 1 else e0

/-- The integer nearest to `m ≥ 0`, a tie going to the even one. -/
def round_half_even (m : ℚ) : Int :=
  let f : Int := m.num / (m.den : Int)
  let r : ℚ := m - f
  if r < 1 / 2 then f else if 1 / 2 < r then f + 1 else if f % 2 = 0 then f else f + 1

/-- Rounding of a real result to the type `double` (IEEE 754 binary64): to the
nearest value with a 53-bit significand, ties to even, with the subnormal spacing
`2^-1074` at the bottom of the range.  Overflow to infinity is left out: the
statements use it on values far inside the range. -/
def round_double (x : ℚ) : ℚ :=
  if x = 0 then 0
  else
    let a := if x < 0 then -x else x
    let q := max (binary_exponent a - 52) (-1074)
    let n := round_half_even (a / pow2 q)
    if x < 0 then -((n : ℚ) * pow2 q) else (n : ℚ) * pow2 q

/-- Function `get_degree` with every `double` operation rounded by `rnd`. -/
def get_degree_fp (rnd : ℚ → ℚ) (rows : sparserow) (id : Nat) : ℚ :=
  forLoop (rows.ai.getD id 0 - rows.offset) (rows.ai.getD (id + 1) 0 - rows.offset)
    (fun d j => rnd (d + rows.a.getD j 0)) 0

/-- Second loop of `sweep_cut` with rounded additions. -/
def total_degree_fp (rnd : ℚ → ℚ) (rows : sparserow) : ℚ :=
  forLoop 0 (rows.ai.getD rows.m 0 - rows.offset) (fun t i => rnd (t + rows.a.getD i 0)) 0

/-- The degree used for `v`, with `get_degree` rounded. -/
def vertex_degree_fp (rnd : ℚ → ℚ) (rows : sparserow) (degrees : Option (List ℚ))
    (v : Nat) : ℚ :=
  match degrees with
  | none => get_degree_fp rnd rows v
  | some d => d.getD v 0

/-- The inner loop over the row of `v`: `cut_change -= 2 * a[j]` with the product and
the difference rounded. -/
def cut_change_fp (rnd : ℚ → ℚ) (rows : sparserow) (rank : RankMap) (v : Nat) (deg : ℚ) : ℚ :=
  forLoop (rows.ai.getD v 0 - rows.offset) (rows.ai.getD (v + 1) 0 - rows.offset)
    (fun cc j =>
      let neighbor := rows.aj.getD j 0 - rows.offset
      if rank.count neighbor > 0 ∧ rank.read neighbor < rank.read v then
        rnd (cc - rnd (2 * rows.a.getD j 0))
      else cc)
    deg

/-- The value `cur_cond` with the difference `total_degree - curvolume` and the
quotient rounded. -/
def cur_cond_fp (rnd : ℚ → ℚ) (curcutsize curvolume total : ℚ) : ℚ :=
  if curvolume = 0 ∨ rnd (total - curvolume) = 0 then 1
  else rnd (curcutsize / min curvolume (rnd (total - curvolume)))

/-- One iteration of the main loop of `sweep_cut` in rounded arithmetic. -/
def sweep_step_fp (rnd : ℚ → ℚ) (rows : sparserow) (ids : List Nat)
    (degrees : Option (List ℚ)) (rank : RankMap) (total : ℚ) (st : SweepState) (i : Nat) :
    SweepState :=
  let v := ids.getD i 0 - rows.offset
  let deg := vertex_degree_fp rnd rows degrees v
  let cc := cut_change_fp rnd rows rank v deg
  let curcutsize := rnd (st.curcutsize + cc)
  let curvolume := rnd (st.curvolume + deg)
  let cond := cur_cond_fp rnd curcutsize curvolume total
  if st.min_cond = -1 ∨ cond < st.min_cond then
    ⟨curcutsize, curvolume, cond, some i⟩
  else
    ⟨curcutsize, curvolume, st.min_cond, st.min_id⟩

/-- The main loop of `sweep_cut` in rounded arithmetic, run for `i = 0, …, k - 1`. -/
def sweep_loop_fp (rnd : ℚ → ℚ) (rows : sparserow) (ids : List Nat) (num : Nat)
    (degrees : Option (List ℚ)) (k : Nat) : SweepState :=
  forLoop 0 k
    (sweep_step_fp rnd rows ids degrees (build_rank rows ids num) (total_degree_fp rnd rows))
    SweepState.init

/-- Function `sweep_cut` with every `double` operation rounded by `rnd`; with
`rnd = round_double` this is the arithmetic of the program, with the identity it is
`sweep_cut`. -/
def sweep_cut_fp (rnd : ℚ → ℚ) (rows : sparserow) (ids results : List Nat) (num : Nat)
    (degrees : Option (List ℚ)) : Option SweepResult :=
  let st := sweep_loop_fp rnd rows ids num degrees num
  match st.min_id with
  | none => none
  | some min_id =>
    some
      { results := copy_results ids results min_id
        ret_cond := st.min_cond
        actual_length := min_id + 1 }

/-- The `double` nearest to `0.1`. -/
def tenth : ℚ := round_double (1 / 10)

/-- The path graph 0-1-2-3 with every weight the `double` nearest to `0.1`. -/
def tenthPathGraph : sparserow :=
  { m := 4, n := 4, ai := [0, 1, 3, 5, 6], aj := [1, 0, 2, 1, 3, 2],
    a := [tenth, tenth, tenth, tenth, tenth, tenth], offset := 0 }

/-- The triangle with the edges 0-1 and 0-2 of weight `0.1` and the edge 1-2 of
weight `0.7`, as `double` values. -/
def triangleGraph : sparserow :=
  { m := 3, n := 3, ai := [0, 2, 4, 6], aj := [1, 2, 0, 2, 0, 1],
    a := [tenth, tenth, tenth, round_double (7 / 10), tenth, round_double (7 / 10)],
    offset := 0 }

/-! ## Loops -/

theorem forLoop_zero_succ {σ : Type} (k : Nat) (body : σ → Nat → σ) (init : σ) :
    forLoop 0 (k + 1) body init = body (forLoop 0 k body init) k := by
  simp [forLoop, List.range'_1_concat, List.foldl_append]

theorem forLoop_add_sum (lo hi : Nat) (f : Nat → ℚ) (init : ℚ) :
    forLoop lo hi (fun d j => d + f j) init
      = init + ((List.range' lo (hi - lo)).map f).sum := by
  unfold forLoop
  generalize List.range' lo (hi - lo) = l
  induction l generalizing init with
  | nil => simp
  | cons x xs ih => simp [ih, add_assoc]

theorem sweep_loop_zero (rows : sparserow) (ids : List Nat) (num : Nat)
    (degrees : Option (List ℚ)) :
    sweep_loop rows ids num degrees 0 = SweepState.init := by
  simp [sweep_loop, forLoop]

theorem sweep_loop_succ (rows : sparserow) (ids : List Nat) (num : Nat)
    (degrees : Option (List ℚ)) (k : Nat) :
    sweep_loop rows ids num degrees (k + 1)
      = sweep_step rows ids degrees (build_rank rows ids num) (total_degree rows)
          (sweep_loop rows ids num degrees k) k := by
  simp [sweep_loop, forLoop_zero_succ]

/-! ## The running sums and the minimum tracker -/

theorem sweep_step_curvolume (rows : sparserow) (ids : List Nat) (degrees : Option (List ℚ))
    (rank : RankMap) (total : ℚ) (st : SweepState) (i : Nat) :
    (sweep_step rows ids degrees rank total st i).curvolume
      = st.curvolume + vertex_degree rows degrees (ids.getD i 0 - rows.offset) := by
  unfold sweep_step
  simp only []
  split <;> rfl

theorem sweep_step_curcutsize (rows : sparserow) (ids : List Nat) (degrees : Option (List ℚ))
    (rank : RankMap) (total : ℚ) (st : SweepState) (i : Nat) :
    (sweep_step rows ids degrees rank total st i).curcutsize
      = st.curcutsize + cut_change rows rank (ids.getD i 0 - rows.offset)
          (vertex_degree rows degrees (ids.getD i 0 - rows.offset)) := by
  unfold sweep_step
  simp only []
  split <;> rfl

theorem sweep_loop_curvolume (rows : sparserow) (ids : List Nat) (num : Nat)
    (degrees : Option (List ℚ)) (k : Nat) :
    (sweep_loop rows ids num degrees (k + 1)).curvolume = prefix_volume rows ids degrees k := by
  induction k with
  | zero =>
    simp [sweep_loop_succ, sweep_loop_zero, sweep_step_curvolume, SweepState.init,
      prefix_volume, List.range_succ]
  | succ k ih =>
    rw [sweep_loop_succ, sweep_step_curvolume, ih]
    simp [prefix_volume, List.range_succ, add_assoc]

theorem sweep_loop_curcutsize (rows : sparserow) (ids : List Nat) (num : Nat)
    (degrees : Option (List ℚ)) (k : Nat) :
    (sweep_loop rows ids num degrees (k + 1)).curcutsize
      = prefix_cut rows ids num degrees k := by
  induction k with
  | zero =>
    simp [sweep_loop_succ, sweep_loop_zero, sweep_step_curcutsize, SweepState.init,
      prefix_cut, List.range_succ]
  | succ k ih =>
    rw [sweep_loop_succ, sweep_step_curcutsize, ih]
    simp [prefix_cut, List.range_succ, add_assoc]

theorem sweep_loop_track (rows : sparserow) (ids : List Nat) (num : Nat)
    (degrees : Option (List ℚ)) (k : Nat) :
    ((sweep_loop rows ids num degrees k).min_cond, (sweep_loop rows ids num degrees k).min_id)
      = track (prefix_cond rows ids num degrees) k := by
  induction k with
  | zero => simp [sweep_loop_zero, SweepState.init, track]
  | succ k ih =>
    have hc : (sweep_loop rows ids num degrees (k + 1)).curcutsize
        = prefix_cut rows ids num degrees k := sweep_loop_curcutsize rows ids num degrees k
    have hv : (sweep_loop rows ids num degrees (k + 1)).curvolume
        = prefix_volume rows ids degrees k := sweep_loop_curvolume rows ids num degrees k
    rw [sweep_loop_succ, sweep_step_curcutsize] at hc
    rw [sweep_loop_succ, sweep_step_curvolume] at hv
    have h1 : (track (prefix_cond rows ids num degrees) k).1
        = (sweep_loop rows ids num degrees k).min_cond := by rw [← ih]
    have h2 : track (prefix_cond rows ids num degrees) k
        = ((sweep_loop rows ids num degrees k).min_cond,
            (sweep_loop rows ids num degrees k).min_id) := ih.symm
    rw [sweep_loop_succ]
    unfold sweep_step
    simp only [track, h1]
    rw [hc, hv]
    simp only [prefix_cond]
    split
    · rfl
    · exact h2.symm

theorem track_some (c : Nat → ℚ) (k : Nat) (hk : 1 ≤ k) :
    ∃ i, i < k ∧ (track c k).2 = some i ∧ (track c k).1 = c i := by
  induction k with
  | zero => omega
  | succ k ih =>
    rcases Nat.eq_zero_or_pos k with h0 | hpos
    · subst h0
      exact ⟨0, by omega, by simp [track], by simp [track]⟩
    · obtain ⟨i, hi, h2, h1⟩ := ih hpos
      by_cases hu : (track c k).1 = -1 ∨ c k < (track c k).1
      · exact ⟨k, by omega, by simp [track, hu], by simp [track, hu]⟩
      · have h3 : track c (k + 1) = track c k := by simp [track, hu]
        exact ⟨i, by omega, by rw [h3, h2], by rw [h3, h1]⟩

theorem track_first_min (c : Nat → ℚ) (k : Nat) (hk : 1 ≤ k) (hc : ∀ i, i < k → c i ≠ -1) :
    ∃ i, i < k ∧ (track c k).2 = some i ∧ (track c k).1 = c i ∧
      (∀ j, j < k → c i ≤ c j) ∧ (∀ j, j < i → c i < c j) := by
  induction k with
  | zero => omega
  | succ k ih =>
    rcases Nat.eq_zero_or_pos k with h0 | hpos
    · subst h0
      refine ⟨0, by omega, by simp [track], by simp [track], ?_, ?_⟩
      · intro j hj
        have : j = 0 := by omega
        subst this
        exact le_refl _
      · intro j hj
        omega
    · obtain ⟨i, hi, h2, h1, hmin, hfirst⟩ := ih hpos (fun i hi => hc i (by omega))
      have hne : (track c k).1 ≠ -1 := by
        rw [h1]
        exact hc i (by omega)
      by_cases hu : c k < (track c k).1
      · refine ⟨k, by omega, by simp [track, hu], by simp [track, hu], ?_, ?_⟩
        · intro j hj
          rcases Nat.lt_succ_iff_lt_or_eq.mp hj with hlt | heq
          · rw [h1] at hu
            exact le_of_lt (lt_of_lt_of_le hu (hmin j hlt))
          · rw [heq]
        · intro j hj
          rw [h1] at hu
          exact lt_of_lt_of_le hu (hmin j hj)
      · have h3 : track c (k + 1) = track c k := by simp [track, hu, hne]
        refine ⟨i, by omega, by rw [h3, h2], by rw [h3, h1], ?_, hfirst⟩
        intro j hj
        rcases Nat.lt_succ_iff_lt_or_eq.mp hj with hlt | heq
        · exact hmin j hlt
        · rw [heq, ← h1]
          exact not_lt.mp hu

theorem track_stable (c : Nat → ℚ) (k i : Nat) (h : (track c k).2 = some i) :
    i < k ∧ track c (i + 1) = track c k := by
  induction k with
  | zero => simp [track] at h
  | succ k ih =>
    by_cases hu : (track c k).1 = -1 ∨ c k < (track c k).1
    · have hik : i = k := by
        simp [track, hu] at h
        omega
      subst hik
      exact ⟨by omega, rfl⟩
    · have h3 : track c (k + 1) = track c k := by simp [track, hu]
      rw [h3] at h
      obtain ⟨hlt, heq⟩ := ih h
      exact ⟨by omega, by rw [heq, h3]⟩

theorem track_congr (c d : Nat → ℚ) (k : Nat) (h : ∀ i, i < k → c i = d i) :
    track c k = track d k := by
  induction k with
  | zero => rfl
  | succ k ih =>
    have hk := ih (fun i hi => h i (by omega))
    simp only [track, hk, h k (by omega)]

/-! ## The returned prefix -/

theorem copy_loop_eq (ids results : List Nat) (k : Nat) (hi : k ≤ ids.length)
    (hr : k ≤ results.length) :
    forLoop 0 k (fun res j => res.set j (ids.getD j 0)) results
      = ids.take k ++ results.drop k := by
  induction k with
  | zero => simp [forLoop]
  | succ k ih =>
    rw [forLoop_zero_succ, ih (by omega) (by omega)]
    apply List.ext_getElem?
    intro n
    rcases Nat.lt_trichotomy n k with hlt | heq | hgt
    · rw [List.getElem?_set_ne (by omega), List.getElem?_append_left (by simp; omega),
        List.getElem?_append_left (by simp; omega), List.getElem?_take_of_lt hlt,
        List.getElem?_take_of_lt (by omega)]
    · subst heq
      rw [List.getElem?_set_self (by simp; omega),
        List.getElem?_append_left (by simp; omega), List.getElem?_take_of_lt (by omega)]
      simp [List.getD, List.getElem?_eq_getElem hi]
    · rw [List.getElem?_set_ne (by omega), List.getElem?_append_right (by simp; omega),
        List.getElem?_append_right (by simp; omega)]
      simp only [List.length_take, List.getElem?_drop]
      congr 1
      rw [Nat.min_eq_left (by omega), Nat.min_eq_left (by omega)]
      omega

theorem copy_results_eq (ids results : List Nat) (m : Nat) (hi : m + 1 ≤ ids.length)
    (hr : m + 1 ≤ results.length) :
    copy_results ids results m = ids.take (m + 1) ++ results.drop (m + 1) :=
  copy_loop_eq ids results (m + 1) hi hr

theorem sweep_cut_eq (rows : sparserow) (ids results : List Nat) (num : Nat)
    (degrees : Option (List ℚ)) (hnum : 1 ≤ num) :
    ∃ i, i < num ∧ (track (prefix_cond rows ids num degrees) num).2 = some i ∧
      sweep_cut rows ids results num degrees
        = some { results := copy_results ids results i
                 ret_cond := prefix_cond rows ids num degrees i
                 actual_length := i + 1 } := by
  obtain ⟨i, hi, h2, h1⟩ := track_some (prefix_cond rows ids num degrees) num hnum
  have ht := sweep_loop_track rows ids num degrees num
  have hid : (sweep_loop rows ids num degrees num).min_id = some i := by
    rw [← h2, ← ht]
  have hmc : (sweep_loop rows ids num degrees num).min_cond
      = prefix_cond rows ids num degrees i := by
    rw [← h1, ← ht]
  refine ⟨i, hi, h2, ?_⟩
  simp only [sweep_cut, hid, hmc]

/-! ## The rank map -/

theorem forLoop_congr {σ : Type} (k : Nat) (f g : σ → Nat → σ) (init : σ)
    (h : ∀ st i, i < k → f st i = g st i) :
    forLoop 0 k f init = forLoop 0 k g init := by
  induction k with
  | zero => simp [forLoop]
  | succ k ih =>
    rw [forLoop_zero_succ, forLoop_zero_succ, ih (fun st i hi => h st i (by omega)),
      h _ k (by omega)]

theorem injectiveIds_of_distinct (rows : sparserow) (ids : List Nat) (num : Nat)
    (hd : DistinctIds ids num) (hv : ∀ i, i < num → rows.offset ≤ ids.getD i 0) :
    InjectiveIds rows ids num := by
  intro p hp q hq h
  have h1 := hv p hp
  have h2 := hv q hq
  exact hd p hp q hq (by omega)

theorem build_rank_succ (rows : sparserow) (ids : List Nat) (k : Nat) :
    build_rank rows ids (k + 1)
      = (build_rank rows ids k).assign (ids.getD k 0 - rows.offset) (k + 1) := by
  simp [build_rank, forLoop_zero_succ]

theorem build_rank_some_iff (rows : sparserow) (ids : List Nat) (k : Nat)
    (hinj : InjectiveIds rows ids k) (v r : Nat) :
    build_rank rows ids k v = some r
      ↔ ∃ p, p < k ∧ ids.getD p 0 - rows.offset = v ∧ r = p + 1 := by
  induction k generalizing v r with
  | zero => simp [build_rank, forLoop, RankMap.empty]
  | succ k ih =>
    have hinj' : InjectiveIds rows ids k :=
      fun p hp q hq h => hinj p (by omega) q (by omega) h
    rw [build_rank_succ]
    unfold RankMap.assign
    by_cases hv : v = ids.getD k 0 - rows.offset
    · rw [if_pos hv]
      constructor
      · intro h
        exact ⟨k, by omega, hv.symm, (Option.some.inj h).symm⟩
      · rintro ⟨p, hp, hpv, hr⟩
        have hpk : p = k := hinj p hp k (by omega) (by rw [hpv, hv])
        rw [hr, hpk]
    · rw [if_neg hv, ih hinj']
      constructor
      · rintro ⟨p, hp, hpv, hr⟩
        exact ⟨p, by omega, hpv, hr⟩
      · rintro ⟨p, hp, hpv, hr⟩
        have hpk : p ≠ k := by
          intro h
          rw [h] at hpv
          exact hv hpv.symm
        exact ⟨p, by omega, hpv, hr⟩

theorem earlier_iff (rows : sparserow) (ids : List Nat) (num : Nat)
    (hinj : InjectiveIds rows ids num) (i : Nat) (hi : i < num) (u : Nat) :
    earlier (build_rank rows ids num) u (ids.getD i 0 - rows.offset)
      ↔ ∃ p, p < i ∧ ids.getD p 0 - rows.offset = u := by
  have hvi : build_rank rows ids num (ids.getD i 0 - rows.offset) = some (i + 1) :=
    (build_rank_some_iff rows ids num hinj _ _).mpr ⟨i, hi, rfl, rfl⟩
  unfold earlier RankMap.count RankMap.read
  rw [hvi]
  constructor
  · rintro ⟨hc, hlt⟩
    cases hu : build_rank rows ids num u with
    | none => simp [hu] at hc
    | some r =>
      obtain ⟨p, _, hpu, hr⟩ := (build_rank_some_iff rows ids num hinj u r).mp hu
      rw [hu] at hlt
      simp only [Option.getD_some] at hlt
      exact ⟨p, by omega, hpu⟩
  · rintro ⟨p, hp, hpu⟩
    have hu : build_rank rows ids num u = some (p + 1) :=
      (build_rank_some_iff rows ids num hinj u _).mpr ⟨p, by omega, hpu, rfl⟩
    rw [hu]
    simp
    omega

theorem cut_change_congr (rows : sparserow) (rank rank2 : RankMap) (v v2 : Nat) (deg : ℚ)
    (hv : v = v2) (h : ∀ u, earlier rank u v ↔ earlier rank2 u v2) :
    cut_change rows rank v deg = cut_change rows rank2 v2 deg := by
  subst hv
  unfold cut_change
  congr 1
  funext cc j
  have hj := h (rows.aj.getD j 0 - rows.offset)
  unfold earlier at hj
  simp only [hj]

/-! ## Re-running the sweep on a prefix -/

theorem getD_take_of_lt (ids : List Nat) (k p : Nat) (hp : p < k) :
    (ids.take k).getD p 0 = ids.getD p 0 := by
  simp [List.getD_eq_getElem?_getD, List.getElem?_take_of_lt hp]

theorem injectiveIds_take (rows : sparserow) (ids : List Nat) (num k : Nat) (hk : k ≤ num)
    (hinj : InjectiveIds rows ids num) : InjectiveIds rows (ids.take k) k := by
  intro p hp q hq h
  rw [getD_take_of_lt ids k p hp, getD_take_of_lt ids k q hq] at h
  exact hinj p (by omega) q (by omega) h

theorem prefix_volume_take (rows : sparserow) (ids : List Nat) (degrees : Option (List ℚ))
    (k i : Nat) (hi : i < k) :
    prefix_volume rows (ids.take k) degrees i = prefix_volume rows ids degrees i := by
  unfold prefix_volume
  congr 1
  apply List.map_congr_left
  intro p hp
  rw [getD_take_of_lt ids k p (by have := List.mem_range.mp hp; omega)]

theorem prefix_cut_take (rows : sparserow) (ids : List Nat) (num : Nat)
    (degrees : Option (List ℚ)) (hinj : InjectiveIds rows ids num)
    (k i : Nat) (hk : k ≤ num) (hi : i < k) :
    prefix_cut rows (ids.take k) k degrees i = prefix_cut rows ids num degrees i := by
  unfold prefix_cut
  congr 1
  apply List.map_congr_left
  intro p hp
  have hpk : p < k := by
    have := List.mem_range.mp hp
    omega
  have hg := getD_take_of_lt ids k p hpk
  rw [hg]
  apply cut_change_congr rows _ _ _ _ _ rfl
  intro u
  have h1 := earlier_iff rows (ids.take k) k (injectiveIds_take rows ids num k hk hinj) p hpk u
  rw [hg] at h1
  rw [h1, earlier_iff rows ids num hinj p (by omega) u]
  constructor
  · rintro ⟨q, hq, hqu⟩
    exact ⟨q, hq, by rw [← hqu, getD_take_of_lt ids k q (by omega)]⟩
  · rintro ⟨q, hq, hqu⟩
    exact ⟨q, hq, by rw [← hqu, getD_take_of_lt ids k q (by omega)]⟩

theorem prefix_cond_take (rows : sparserow) (ids : List Nat) (num : Nat)
    (degrees : Option (List ℚ)) (hinj : InjectiveIds rows ids num)
    (k i : Nat) (hk : k ≤ num) (hi : i < k) :
    prefix_cond rows (ids.take k) k degrees i = prefix_cond rows ids num degrees i := by
  unfold prefix_cond
  rw [prefix_cut_take rows ids num degrees hinj k i hk hi,
    prefix_volume_take rows ids degrees k i hi]

/-! ## Supplied degrees -/

theorem sweep_loop_degrees_congr (rows : sparserow) (ids : List Nat) (num : Nat)
    (d e : Option (List ℚ)) (k : Nat)
    (h : ∀ i, i < k → vertex_degree rows d (ids.getD i 0 - rows.offset)
      = vertex_degree rows e (ids.getD i 0 - rows.offset)) :
    sweep_loop rows ids num d k = sweep_loop rows ids num e k := by
  unfold sweep_loop
  apply forLoop_congr
  intro st i hi
  unfold sweep_step
  simp only [h i hi]

/-! ## The ordering step -/

theorem set_loop_eq {α : Type} (f : Nat → α) (init : List α) (k : Nat)
    (hk : k ≤ init.length) :
    forLoop 0 k (fun l i => l.set i (f i)) init = (List.range k).map f ++ init.drop k := by
  induction k with
  | zero => simp [forLoop]
  | succ k ih =>
    rw [forLoop_zero_succ, ih (by omega)]
    apply List.ext_getElem?
    intro n
    rcases Nat.lt_trichotomy n k with hlt | heq | hgt
    · rw [List.getElem?_set_ne (by omega), List.getElem?_append_left (by simp; omega),
        List.getElem?_append_left (by simp; omega)]
      simp [List.getElem?_range, hlt, Nat.lt_succ_of_lt hlt]
    · subst heq
      rw [List.getElem?_set_self (by simp; omega),
        List.getElem?_append_left (by simp)]
      simp [List.getElem?_range]
    · rw [List.getElem?_set_ne (by omega), List.getElem?_append_right (by simp; omega),
        List.getElem?_append_right (by simp; omega)]
      simp only [List.length_map, List.length_range, List.getElem?_drop]
      congr 1
      omega

theorem pair_nodes_eq (value : List ℚ) (ids : List Nat) (num : Nat)
    (hi : ids.length = num) (hv : value.length = num) :
    pair_nodes value ids num = ids.zip value := by
  unfold pair_nodes
  rw [set_loop_eq _ _ num (by simp)]
  simp only [List.drop_replicate, Nat.sub_self, List.replicate_zero, List.append_nil]
  apply List.ext_getElem?
  intro n
  by_cases hn : n < num
  · have h1 : n < ids.length := by omega
    have h2 : n < value.length := by omega
    simp [List.getElem?_range, hn, List.getD_eq_getElem?_getD, List.getElem?_eq_getElem, h1,
      h2, List.getElem?_zip_eq_some]
  · rw [List.getElem?_eq_none (by simp; omega), List.getElem?_eq_none (by simp; omega)]

theorem project_ids_eq (nodes : List (Nat × ℚ)) (num : Nat) (hn : nodes.length = num) :
    project_ids nodes num = nodes.map Prod.fst := by
  unfold project_ids
  rw [set_loop_eq _ _ num (by simp)]
  simp only [List.drop_replicate, Nat.sub_self, List.replicate_zero, List.append_nil]
  apply List.ext_getElem?
  intro n
  by_cases h : n < num
  · have h1 : n < nodes.length := by omega
    simp [List.getElem?_range, h, List.getD_eq_getElem?_getD, List.getElem?_eq_getElem, h1]
  · rw [List.getElem?_eq_none (by simp; omega), List.getElem?_eq_none (by simp; omega)]

theorem myobject_false_iff (x y : Nat × ℚ) : myobject y x = false ↔ y.2 ≤ x.2 := by
  simp [myobject]

theorem stdSort_fixes_strictly_descending (sort : List (Nat × ℚ) → List (Nat × ℚ))
    (hs : StdSort sort) (l : List (Nat × ℚ)) (hl : l.Pairwise (fun x y => x.2 > y.2)) :
    sort l = l := by
  obtain ⟨hperm, hsorted⟩ := hs l
  have hne : l.Pairwise (fun x y => x.2 ≠ y.2) :=
    List.Pairwise.imp (fun {x y} h => ne_of_gt h) hl
  have hne2 : (sort l).Pairwise (fun x y => x.2 ≠ y.2) :=
    (hperm.pairwise_iff (fun {x y} h => Ne.symm h)).mpr hne
  have hgt : (sort l).Pairwise (fun x y => x.2 > y.2) := by
    have := hsorted.and hne2
    exact List.Pairwise.imp
      (fun {x y} h => lt_of_le_of_ne ((myobject_false_iff x y).mp h.1) (Ne.symm h.2)) this
  haveI : IsAntisymm (Nat × ℚ) (fun x y => x.2 > y.2) :=
    ⟨fun x y h1 h2 => absurd h1 (not_lt_of_gt h2)⟩
  exact List.eq_of_perm_of_sorted hperm hgt hl

/-! ## Permutation lemmas for array writes -/

theorem set_getD_self {α : Type} [Inhabited α] (arr : List α) (i : Nat) :
    arr.set i (arr.getD i default) = arr := by
  apply List.ext_getElem?
  intro n
  by_cases hn : n = i
  · subst hn
    by_cases hlt : n < arr.length
    · rw [List.getElem?_set_self hlt]
      simp [List.getD_eq_getElem?_getD, List.getElem?_eq_getElem hlt]
    · rw [List.getElem?_eq_none (by simp; omega), List.getElem?_eq_none (by omega)]
  · rw [List.getElem?_set_ne (fun h => hn h.symm)]

theorem set_set_swap_perm {α : Type} [Inhabited α] (arr : List α) (h p : Nat) (v : α)
    (hh : h < arr.length) (hp : p < arr.length) :
    ((arr.set h (arr.getD p default)).set p v).Perm (arr.set h v) := by
  classical
  rw [List.perm_iff_count]
  intro a
  have hp2 : p < (arr.set h (arr.getD p default)).length := by simpa using hp
  rw [List.count_set _ _ _ _ hp2, List.count_set _ _ _ _ hh, List.count_set _ _ _ _ hh]
  have hAp : (arr.set h (arr.getD p default))[p] = arr[p] := by
    by_cases hph : h = p
    · subst hph
      simp [List.getD_eq_getElem?_getD, List.getElem?_eq_getElem hp]
    · rw [List.getElem_set_ne hph]
  have hgp : arr.getD p default = arr[p] := by
    simp [List.getD_eq_getElem?_getD, List.getElem?_eq_getElem hp]
  rw [hAp, hgp]
  have hle : (if arr[h] == a then 1 else 0) ≤ List.count a arr :=
    List.boole_getElem_le_count a arr h hh
  split_ifs <;> omega

theorem iter_swap_perm {α : Type} [Inhabited α] (arr : List α) (i j : Nat)
    (hi : i < arr.length) (hj : j < arr.length) : (iter_swap arr i j).Perm arr := by
  have h := set_set_swap_perm arr i j (arr.getD i default) hi hj
  rw [set_getD_self] at h
  exact h

theorem iter_swap_length {α : Type} [Inhabited α] (arr : List α) (i j : Nat) :
    (iter_swap arr i j).length = arr.length := by
  simp [iter_swap]

/-! ## The heap functions permute the array -/

theorem push_heap_perm {α : Type} [Inhabited α] (comp : α → α → Bool) (first top : Nat)
    (value : α) (fuel : Nat) (arr : List α) (holeIndex : Nat)
    (hh : first + holeIndex < arr.length) :
    (push_heap comp first top value fuel arr holeIndex).Perm
      (arr.set (first + holeIndex) value) := by
  induction fuel generalizing arr holeIndex with
  | zero => exact List.Perm.refl _
  | succ fuel ih =>
    unfold push_heap
    simp only
    split
    · have hp : first + (holeIndex - 1) / 2 < arr.length := by omega
      have h1 := ih (arr.set (first + holeIndex)
        (arr.getD (first + (holeIndex - 1) / 2) default)) ((holeIndex - 1) / 2)
        (by simpa using hp)
      exact h1.trans (set_set_swap_perm arr _ _ value hh hp)
    · exact List.Perm.refl _

theorem adjust_heap_loop_spec {α : Type} [Inhabited α] (comp : α → α → Bool)
    (first len : Nat) (value : α) (fuel : Nat) (arr : List α) (holeIndex : Nat)
    (hlen : first + len ≤ arr.length) (hh : first + holeIndex < arr.length) :
    ((adjust_heap_loop comp first len fuel arr holeIndex holeIndex).1.set
        (first + (adjust_heap_loop comp first len fuel arr holeIndex holeIndex).2.1) value).Perm
      (arr.set (first + holeIndex) value) ∧
    (adjust_heap_loop comp first len fuel arr holeIndex holeIndex).1.length = arr.length ∧
    first + (adjust_heap_loop comp first len fuel arr holeIndex holeIndex).2.1 < arr.length ∧
    (adjust_heap_loop comp first len fuel arr holeIndex holeIndex).2.2
      = (adjust_heap_loop comp first len fuel arr holeIndex holeIndex).2.1 := by
  induction fuel generalizing arr holeIndex with
  | zero => exact ⟨List.Perm.refl _, rfl, hh, rfl⟩
  | succ fuel ih =>
    unfold adjust_heap_loop
    simp only
    split
    · rename_i hlt
      have hsc : first + 2 * (holeIndex + 1) < arr.length := by omega
      split
      · have hs : first + (2 * (holeIndex + 1) - 1) < arr.length := by omega
        obtain ⟨h1, h2, h3, h4⟩ := ih
          (arr.set (first + holeIndex) (arr.getD (first + (2 * (holeIndex + 1) - 1)) default))
          (2 * (holeIndex + 1) - 1) (by simpa using hlen) (by simpa using hs)
        refine ⟨h1.trans (set_set_swap_perm arr _ _ value hh hs), ?_, ?_, h4⟩
        · simpa using h2
        · simpa using h3
      · obtain ⟨h1, h2, h3, h4⟩ := ih
          (arr.set (first + holeIndex) (arr.getD (first + 2 * (holeIndex + 1)) default))
          (2 * (holeIndex + 1)) (by simpa using hlen) (by simpa using hsc)
        refine ⟨h1.trans (set_set_swap_perm arr _ _ value hh hsc), ?_, ?_, h4⟩
        · simpa using h2
        · simpa using h3
    · exact ⟨List.Perm.refl _, rfl, hh, rfl⟩

theorem adjust_heap_perm {α : Type} [Inhabited α] (comp : α → α → Bool) (arr : List α)
    (first holeIndex len : Nat) (value : α)
    (hlen : first + len ≤ arr.length) (hh : first + holeIndex < arr.length) :
    (adjust_heap comp arr first holeIndex len value).Perm
      (arr.set (first + holeIndex) value) := by
  obtain ⟨h1, h2, h3, h4⟩ :=
    adjust_heap_loop_spec comp first len value len arr holeIndex hlen hh
  unfold adjust_heap
  simp only
  split
  · rename_i hc
    rw [h4] at hc
    have hs : first + (2 * ((adjust_heap_loop comp first len len arr holeIndex holeIndex).2.2 + 1)
        - 1) < (adjust_heap_loop comp first len len arr holeIndex holeIndex).1.length := by
      rw [h4, h2]
      omega
    have h5 := push_heap_perm comp first holeIndex value len
      ((adjust_heap_loop comp first len len arr holeIndex holeIndex).1.set
        (first + (adjust_heap_loop comp first len len arr holeIndex holeIndex).2.1)
        ((adjust_heap_loop comp first len len arr holeIndex holeIndex).1.getD
          (first + (2 * ((adjust_heap_loop comp first len len arr holeIndex holeIndex).2.2 + 1)
            - 1)) default))
      (2 * ((adjust_heap_loop comp first len len arr holeIndex holeIndex).2.2 + 1) - 1)
      (by simpa using hs)
    exact (h5.trans (set_set_swap_perm _ _ _ value (by rw [h2]; exact h3) hs)).trans h1
  · exact (push_heap_perm comp first holeIndex value len _ _ (by rw [h2]; exact h3)).trans h1

theorem pop_heap_perm {α : Type} [Inhabited α] (comp : α → α → Bool) (arr : List α)
    (first last result : Nat) (hf : first < arr.length) (hr : result < arr.length)
    (hl : last ≤ arr.length) : (pop_heap comp arr first last result).Perm arr := by
  unfold pop_heap
  simp only
  have h1 := adjust_heap_perm comp (arr.set result (arr.getD first default)) first 0
    (last - first) (arr.getD result default) (by simp; omega) (by simpa using hf)
  have h2 : ((arr.set result (arr.getD first default)).set (first + 0)
      (arr.getD result default)) = iter_swap arr result first := rfl
  rw [h2] at h1
  exact h1.trans (iter_swap_perm arr result first hr hf)

theorem make_heap_loop_perm {α : Type} [Inhabited α] (comp : α → α → Bool)
    (first len parent : Nat) (arr : List α) (hlen : first + len ≤ arr.length)
    (hp : parent < len) : (make_heap_loop comp first len parent arr).Perm arr := by
  induction parent generalizing arr with
  | zero =>
    unfold make_heap_loop
    have h := adjust_heap_perm comp arr first 0 len (arr.getD first default) hlen (by omega)
    rw [Nat.add_zero, set_getD_self] at h
    exact h
  | succ parent ih =>
    unfold make_heap_loop
    have h := adjust_heap_perm comp arr first (parent + 1) len
      (arr.getD (first + (parent + 1)) default) hlen (by omega)
    rw [set_getD_self] at h
    exact (ih _ (by rw [h.length_eq]; exact hlen) (by omega)).trans h

theorem make_heap_perm {α : Type} [Inhabited α] (comp : α → α → Bool) (arr : List α)
    (first last : Nat) (hl : last ≤ arr.length) : (make_heap comp arr first last).Perm arr := by
  unfold make_heap
  split
  · exact List.Perm.refl _
  · exact make_heap_loop_perm comp first (last - first) _ arr (by omega) (by omega)

theorem sort_heap_perm {α : Type} [Inhabited α] (comp : α → α → Bool) (first fuel : Nat)
    (arr : List α) (last : Nat) (hl : last ≤ arr.length) :
    (sort_heap comp first fuel arr last).Perm arr := by
  induction fuel generalizing arr last with
  | zero => exact List.Perm.refl _
  | succ fuel ih =>
    unfold sort_heap
    split
    · have h := pop_heap_perm comp arr first (last - 1) (last - 1) (by omega) (by omega)
        (by omega)
      exact (ih _ (last - 1) (by rw [h.length_eq]; omega)).trans h
    · exact List.Perm.refl _

theorem partial_sort_perm {α : Type} [Inhabited α] (comp : α → α → Bool) (arr : List α)
    (first last : Nat) (hl : last ≤ arr.length) :
    (partial_sort comp arr first last last).Perm arr := by
  unfold partial_sort heap_select
  simp only [Nat.sub_self, List.range'_zero, List.foldl_nil]
  have h := make_heap_perm comp arr first last hl
  exact (sort_heap_perm comp first _ _ last (by rw [h.length_eq]; exact hl)).trans h

/-! ## Partitioning permutes the array -/

theorem move_median_to_first_perm {α : Type} [Inhabited α] (comp : α → α → Bool)
    (arr : List α) (result a b c : Nat) (hr : result < arr.length) (ha : a < arr.length)
    (hb : b < arr.length) (hc : c < arr.length) :
    (move_median_to_first comp arr result a b c).Perm arr := by
  unfold move_median_to_first
  split_ifs <;> exact iter_swap_perm arr _ _ hr (by assumption)

theorem scan_up_le {α : Type} [Inhabited α] (comp : α → α → Bool) (arr : List α)
    (pivot fuel first : Nat) (hf : first ≤ arr.length) :
    scan_up comp arr pivot fuel first ≤ arr.length := by
  induction fuel generalizing first with
  | zero => exact hf
  | succ fuel ih =>
    unfold scan_up
    split
    · rename_i h
      exact ih (first + 1) (by omega)
    · exact hf

theorem scan_down_le {α : Type} [Inhabited α] (comp : α → α → Bool) (arr : List α)
    (pivot last : Nat) : scan_down comp arr pivot last ≤ last := by
  induction last with
  | zero => exact le_refl _
  | succ last ih =>
    unfold scan_down
    split
    · exact le_trans ih (Nat.le_succ _)
    · exact le_refl _

theorem unguarded_partition_spec {α : Type} [Inhabited α] (comp : α → α → Bool)
    (pivot fuel : Nat) (arr : List α) (first last : Nat) (hf : first ≤ arr.length)
    (hl : last ≤ arr.length) :
    (unguarded_partition comp pivot fuel arr first last).1.Perm arr ∧
    (unguarded_partition comp pivot fuel arr first last).2 ≤ arr.length := by
  induction fuel generalizing arr first last with
  | zero => exact ⟨List.Perm.refl _, hf⟩
  | succ fuel ih =>
    unfold unguarded_partition
    simp only
    have h1 := scan_up_le comp arr pivot arr.length first hf
    have h2 := scan_down_le comp arr pivot (last - 1)
    split
    · rename_i hlt
      have hsw := iter_swap_perm arr (scan_up comp arr pivot arr.length first)
        (scan_down comp arr pivot (last - 1)) (by omega) (by omega)
      obtain ⟨h3, h4⟩ := ih (iter_swap arr (scan_up comp arr pivot arr.length first)
        (scan_down comp arr pivot (last - 1))) (scan_up comp arr pivot arr.length first + 1)
        (scan_down comp arr pivot (last - 1))
        (by rw [iter_swap_length]; omega) (by rw [iter_swap_length]; omega)
      exact ⟨h3.trans hsw, by rw [iter_swap_length] at h4; exact h4⟩
    · exact ⟨List.Perm.refl _, h1⟩

theorem unguarded_partition_pivot_spec {α : Type} [Inhabited α] (comp : α → α → Bool)
    (arr : List α) (first last : Nat) (hsz : last - first > 16) (hl : last ≤ arr.length) :
    (unguarded_partition_pivot comp arr first last).1.Perm arr ∧
    (unguarded_partition_pivot comp arr first last).2 ≤ arr.length := by
  unfold unguarded_partition_pivot
  simp only
  have hm := move_median_to_first_perm comp arr first (first + 1)
    (first + (last - first) / 2) (last - 1) (by omega) (by omega) (by omega) (by omega)
  obtain ⟨h1, h2⟩ := unguarded_partition_spec comp first
    (move_median_to_first comp arr first (first + 1) (first + (last - first) / 2)
      (last - 1)).length
    (move_median_to_first comp arr first (first + 1) (first + (last - first) / 2) (last - 1))
    (first + 1) last (by rw [hm.length_eq]; omega) (by rw [hm.length_eq]; exact hl)
  exact ⟨h1.trans hm, le_of_le_of_eq h2 hm.length_eq⟩

theorem introsort_loop_perm {α : Type} [Inhabited α] (comp : α → α → Bool)
    (depth_limit : Nat) (arr : List α) (first last : Nat) (hl : last ≤ arr.length) :
    (introsort_loop comp depth_limit arr first last).Perm arr := by
  induction depth_limit generalizing arr first last with
  | zero =>
    unfold introsort_loop
    split
    · exact partial_sort_perm comp arr first last hl
    · exact List.Perm.refl _
  | succ depth_limit ih =>
    unfold introsort_loop
    split
    · rename_i hsz
      simp only
      obtain ⟨h1, h2⟩ := unguarded_partition_pivot_spec comp arr first last hsz hl
      have h3 := ih (unguarded_partition_pivot comp arr first last).1
        (unguarded_partition_pivot comp arr first last).2 last (by rw [h1.length_eq]; exact hl)
      have h4 := ih (introsort_loop comp depth_limit
          (unguarded_partition_pivot comp arr first last).1
          (unguarded_partition_pivot comp arr first last).2 last) first
        (unguarded_partition_pivot comp arr first last).2
        (by rw [h3.length_eq, h1.length_eq]; exact h2)
      exact (h4.trans h3).trans h1
    · exact List.Perm.refl _

/-! ## Insertion into a sorted prefix -/

theorem getD_append_at {α : Type} [Inhabited α] (pre post : List α) (x : α) :
    (pre ++ x :: post).getD pre.length default = x := by
  rw [List.getD_eq_getElem?_getD, List.getElem?_append_right (le_refl _)]
  simp

theorem set_append_at {α : Type} (pre post : List α) (x y : α) :
    (pre ++ x :: post).set pre.length y = pre ++ y :: post := by
  simp [List.set_append]

theorem linear_insert_loop_spec {α : Type} [Inhabited α] (comp : α → α → Bool) (val : α)
    (pre : List α) (g : α) (post : List α) :
    linear_insert_loop comp val pre.length (pre ++ g :: post)
      = (List.orderedInsert (fun a b => comp a b = false) val pre.reverse).reverse ++ post := by
  induction pre using List.reverseRecOn generalizing g post with
  | nil => simp [linear_insert_loop]
  | append_singleton pre e ih =>
    have hlen : (pre ++ [e]).length = pre.length + 1 := by simp
    have harr : pre ++ [e] ++ g :: post = pre ++ e :: g :: post := by simp
    rw [hlen, harr]
    unfold linear_insert_loop
    rw [getD_append_at]
    have hset : ∀ y, (pre ++ e :: g :: post).set (pre.length + 1) y = pre ++ e :: y :: post := by
      intro y
      simp
    by_cases hc : comp val e = true
    · rw [if_pos hc, hset, ih e (e :: post)]
      simp [List.orderedInsert, hc]
    · rw [if_neg hc, hset]
      have hc2 : comp val e = false := by simpa using hc
      simp [List.orderedInsert, hc2]

theorem move_backward_spec {α : Type} [Inhabited α] (front mid : List α) (g : α)
    (post : List α) :
    move_backward mid.length (front ++ mid ++ g :: post) (front.length + mid.length)
      = front ++ mid.headD g :: mid ++ post := by
  induction mid using List.reverseRecOn generalizing g post with
  | nil => simp [move_backward]
  | append_singleton mid e ih =>
    have hlen : (mid ++ [e]).length = mid.length + 1 := by simp
    rw [hlen]
    unfold move_backward
    have h1 : front.length + (mid.length + 1) - 1 = (front ++ mid).length := by simp
    have h2 : front.length + (mid.length + 1) = (front ++ mid ++ [e]).length := by
      simp only [List.length_append, List.length_singleton]
      omega
    have harr : front ++ (mid ++ [e]) ++ g :: post = (front ++ mid) ++ e :: g :: post := by simp
    rw [h1, harr, getD_append_at]
    have hset : ((front ++ mid) ++ e :: g :: post).set (front.length + (mid.length + 1)) e
        = front ++ mid ++ e :: e :: post := by
      simp
    rw [hset]
    have h3 : (front ++ mid).length = front.length + mid.length := by simp
    rw [h3, ih e (e :: post)]
    cases mid <;> simp

theorem insert_back_spec {α : Type} (comp : α → α → Bool) (hsw : StrictWeak comp)
    (pre : List α) (x : α) (hs : pre.Pairwise (fun a b => comp b a = false)) :
    ((List.orderedInsert (fun a b => comp a b = false) x pre.reverse).reverse).Perm (x :: pre) ∧
    ((List.orderedInsert (fun a b => comp a b = false) x pre.reverse).reverse).Pairwise
      (fun a b => comp b a = false) := by
  haveI : IsTotal α (fun a b => comp a b = false) := ⟨fun a b => by
    cases h : comp a b
    · exact Or.inl rfl
    · exact Or.inr (hsw.1 a b h)⟩
  haveI : IsTrans α (fun a b => comp a b = false) := ⟨fun a b c => hsw.2 a b c⟩
  constructor
  · exact (List.reverse_perm _).trans
      ((List.perm_orderedInsert _ x pre.reverse).trans
        (List.Perm.cons x (List.reverse_perm pre)))
  · rw [List.pairwise_reverse]
    have h1 : List.Sorted (fun a b => comp a b = false) pre.reverse := by
      unfold List.Sorted
      rw [List.pairwise_reverse]
      exact hs
    exact List.Sorted.orderedInsert x pre.reverse h1

theorem unguarded_linear_insert_spec {α : Type} [Inhabited α] (comp : α → α → Bool)
    (hsw : StrictWeak comp) (pre : List α) (x : α) (post : List α)
    (hs : pre.Pairwise (fun a b => comp b a = false)) :
    ∃ S, unguarded_linear_insert comp (pre ++ x :: post) pre.length = S ++ post ∧
      S.Perm (x :: pre) ∧ S.Pairwise (fun a b => comp b a = false) := by
  refine ⟨_, ?_, (insert_back_spec comp hsw pre x hs).1, (insert_back_spec comp hsw pre x hs).2⟩
  unfold unguarded_linear_insert
  rw [getD_append_at, linear_insert_loop_spec]

theorem insertion_step_spec {α : Type} [Inhabited α] (comp : α → α → Bool)
    (hsw : StrictWeak comp) (pre : List α) (x : α) (post : List α)
    (hs : pre.Pairwise (fun a b => comp b a = false)) :
    ∃ S,
      (if comp ((pre ++ x :: post).getD pre.length default) ((pre ++ x :: post).getD 0 default)
        then
          (move_backward (pre.length - 0) (pre ++ x :: post) pre.length).set 0
            ((pre ++ x :: post).getD pre.length default)
        else unguarded_linear_insert comp (pre ++ x :: post) pre.length) = S ++ post ∧
      S.Perm (x :: pre) ∧ S.Pairwise (fun a b => comp b a = false) := by
  split
  · rename_i hc
    rw [getD_append_at] at hc
    cases pre with
    | nil =>
      simp only [List.nil_append, List.getD_cons_zero] at hc
      have := hsw.1 x x hc
      rw [hc] at this
      exact absurd this (by decide)
    | cons p ps =>
      simp only [List.cons_append, List.getD_cons_zero] at hc
      refine ⟨x :: p :: ps, ?_, List.Perm.refl _, ?_⟩
      · have hmb := move_backward_spec [] (p :: ps) x post
        simp only [List.nil_append, List.length_nil, Nat.zero_add] at hmb
        rw [getD_append_at, Nat.sub_zero, hmb]
        simp
      · rw [List.pairwise_cons]
        refine ⟨?_, hs⟩
        intro e he
        have hpx : comp p x = false := hsw.1 x p hc
        rcases List.mem_cons.mp he with h | h
        · rw [h]
          exact hpx
        · have hpe : comp e p = false := (List.pairwise_cons.mp hs).1 e h
          exact hsw.2 e p x hpe hpx
  · exact unguarded_linear_insert_spec comp hsw pre x post hs

theorem insertion_fold_spec {α : Type} (le : α → α → Prop) (f : List α → Nat → List α)
    (hf : ∀ pre x post, pre.Pairwise le →
      ∃ S, f (pre ++ x :: post) pre.length = S ++ post ∧ S.Perm (x :: pre) ∧ S.Pairwise le)
    (k : Nat) (pre rest : List α) (hs : pre.Pairwise le) (hk : k ≤ rest.length) :
    ∃ S, (List.range' pre.length k).foldl f (pre ++ rest) = S ++ rest.drop k ∧
      S.Perm (pre ++ rest.take k) ∧ S.Pairwise le := by
  induction k generalizing pre rest with
  | zero => exact ⟨pre, by simp, by simp, hs⟩
  | succ k ih =>
    cases rest with
    | nil => simp at hk
    | cons x rest =>
      obtain ⟨S1, h1, h2, h3⟩ := hf pre x rest hs
      have hlen : S1.length = pre.length + 1 := by
        rw [h2.length_eq]
        simp
      obtain ⟨S, h4, h5, h6⟩ := ih S1 rest h3 (by simpa using hk)
      refine ⟨S, ?_, ?_, h6⟩
      · rw [List.range'_succ, List.foldl_cons, h1, ← hlen, h4]
        simp
      · refine h5.trans ?_
        simp only [List.take_succ_cons]
        exact (List.Perm.append_right _ h2).trans List.perm_middle.symm

/-! ## The final insertion sort orders the whole array -/

theorem insertion_sort_spec {α : Type} [Inhabited α] (comp : α → α → Bool)
    (hsw : StrictWeak comp) (a0 : α) (rest : List α) (last : Nat) (h1 : 1 ≤ last)
    (hl : last ≤ (a0 :: rest).length) :
    ∃ S, insertion_sort comp (a0 :: rest) 0 last = S ++ (a0 :: rest).drop last ∧
      S.Perm ((a0 :: rest).take last) ∧ S.Pairwise (fun a b => comp b a = false) := by
  obtain ⟨S, h2, h3, h4⟩ := insertion_fold_spec (fun a b => comp b a = false)
    (fun arr i =>
      if comp (arr.getD i default) (arr.getD 0 default) then
        (move_backward (i - 0) arr i).set 0 (arr.getD i default)
      else unguarded_linear_insert comp arr i)
    (fun pre x post hs => insertion_step_spec comp hsw pre x post hs)
    (last - 1) [a0] rest (List.pairwise_singleton _ _) (by simp at hl; omega)
  refine ⟨S, ?_, ?_, h4⟩
  · unfold insertion_sort
    rw [if_neg (by omega)]
    have hd : (a0 :: rest).drop last = rest.drop (last - 1) := by
      cases last with
      | zero => omega
      | succ l => simp
    rw [hd]
    exact h2
  · have ht : (a0 :: rest).take last = [a0] ++ rest.take (last - 1) := by
      cases last with
      | zero => omega
      | succ l => simp
    rw [ht]
    exact h3

theorem unguarded_insertion_sort_spec {α : Type} [Inhabited α] (comp : α → α → Bool)
    (hsw : StrictWeak comp) (pre rest : List α)
    (hs : pre.Pairwise (fun a b => comp b a = false)) :
    ∃ S, unguarded_insertion_sort comp (pre ++ rest) pre.length (pre ++ rest).length = S ∧
      S.Perm (pre ++ rest) ∧ S.Pairwise (fun a b => comp b a = false) := by
  obtain ⟨S, h2, h3, h4⟩ := insertion_fold_spec (fun a b => comp b a = false)
    (fun arr i => unguarded_linear_insert comp arr i)
    (fun pre x post hs => unguarded_linear_insert_spec comp hsw pre x post hs)
    rest.length pre rest hs (le_refl _)
  refine ⟨S, ?_, ?_, h4⟩
  · unfold unguarded_insertion_sort
    have hk : (pre ++ rest).length - pre.length = rest.length := by simp
    rw [hk, h2]
    simp
  · simpa using h3

theorem final_insertion_sort_spec {α : Type} [Inhabited α] (comp : α → α → Bool)
    (hsw : StrictWeak comp) (arr : List α) (hne : arr ≠ []) :
    (final_insertion_sort comp arr 0 arr.length).Perm arr ∧
    (final_insertion_sort comp arr 0 arr.length).Pairwise (fun a b => comp b a = false) := by
  cases arr with
  | nil => exact absurd rfl hne
  | cons a0 rest =>
    unfold final_insertion_sort
    split
    · rename_i hgt
      simp only [Nat.sub_zero] at hgt
      obtain ⟨S16, h1, h2, h3⟩ :=
        insertion_sort_spec comp hsw a0 rest 16 (by omega) (by omega)
      have hlen16 : S16.length = 16 := by
        rw [h2.length_eq, List.length_take]
        omega
      have hlenarr : (S16 ++ (a0 :: rest).drop 16).length = (a0 :: rest).length := by
        rw [List.length_append, hlen16, List.length_drop]
        omega
      obtain ⟨S, h4, h5, h6⟩ :=
        unguarded_insertion_sort_spec comp hsw S16 ((a0 :: rest).drop 16) h3
      rw [hlen16, hlenarr] at h4
      rw [Nat.zero_add, h1, h4]
      refine ⟨h5.trans ?_, h6⟩
      have := List.Perm.append_right ((a0 :: rest).drop 16) h2
      rwa [List.take_append_drop] at this
    · rename_i hle
      simp only [Nat.sub_zero] at hle
      obtain ⟨S, h1, h2, h3⟩ :=
        insertion_sort_spec comp hsw a0 rest (a0 :: rest).length (by simp) (le_refl _)
      rw [List.drop_length, List.append_nil] at h1
      rw [List.take_length] at h2
      rw [h1]
      exact ⟨h2, h3⟩

/-- The library sort is a sort: for a comparator that is a strict weak ordering the
result is a permutation of the input in which no element is ordered before one that
precedes it. -/
theorem std_sort_spec {α : Type} [Inhabited α] (comp : α → α → Bool) (hsw : StrictWeak comp)
    (arr : List α) :
    (std_sort comp arr).Perm arr ∧
    (std_sort comp arr).Pairwise (fun a b => comp b a = false) := by
  unfold std_sort
  split
  · rename_i h0
    have : arr = [] := List.length_eq_zero.mp h0
    subst this
    exact ⟨List.Perm.refl _, List.Pairwise.nil⟩
  · rename_i h0
    have hp := introsort_loop_perm comp (floor_log2 arr.length * 2) arr 0 arr.length (le_refl _)
    have hne : introsort_loop comp (floor_log2 arr.length * 2) arr 0 arr.length ≠ [] := by
      intro h
      have := hp.length_eq
      rw [h] at this
      exact h0 this.symm
    have hf := final_insertion_sort_spec comp hsw _ hne
    rw [hp.length_eq] at hf
    exact ⟨hf.1.trans hp, hf.2⟩

/-! ## The library sort with the comparator of the sweep -/

theorem strictWeak_myobject : StrictWeak myobject := by
  constructor
  · intro x y h
    simp only [myobject, decide_eq_true_eq, decide_eq_false_iff_not, not_lt] at h ⊢
    exact le_of_lt h
  · intro x y z h1 h2
    simp only [myobject, decide_eq_false_iff_not, not_lt] at h1 h2 ⊢
    exact le_trans h1 h2

theorem stdSort_std_sort : StdSort (std_sort myobject) :=
  fun l => std_sort_spec myobject strictWeak_myobject l

/-! ## Claims about the returned length, prefix and conductance -/

/-- C1: for every graph, every candidate sequence, every output buffer and every
degrees argument (supplied or absent), a call of `sweep_cut` with `num ≥ 1`
returns, and the returned length satisfies `1 ≤ prefixLength ≤ num`. -/
theorem sweep_cut_length_bounds (rows : sparserow) (ids results : List Nat) (num : Nat)
    (degrees : Option (List ℚ)) (hnum : 1 ≤ num) :
    ∃ r, sweep_cut rows ids results num degrees = some r ∧
      1 ≤ r.actual_length ∧ r.actual_length ≤ num := by
  obtain ⟨i, hi, _, hr⟩ := sweep_cut_eq rows ids results num degrees hnum
  exact ⟨_, hr, by simp, by simp; omega⟩

theorem sweep_cut_length_bounds_witness :
    1 ≤ 4 ∧ ∃ r, sweep_cut pathGraph [0, 1, 2, 3] [9, 9, 9, 9] 4 (some [1, 2, 2, 1]) = some r ∧
      1 ≤ r.actual_length ∧ r.actual_length ≤ 4 :=
  ⟨by decide,
    sweep_cut_length_bounds pathGraph [0, 1, 2, 3] [9, 9, 9, 9] 4 (some [1, 2, 2, 1])
      (by decide)⟩

/-- C2: when `ids` holds at least `num ≥ 1` ids and the output buffer has capacity
at least `num`, `sweep_cut` returns some length `k` and leaves `results[j] = ids[j]`
for every `j < k`: the first `k` entries of the buffer are the first `k` given ids,
in the given order and as given (not offset-normalised). -/
theorem sweep_cut_results_eq_ids (rows : sparserow) (ids results : List Nat) (num : Nat)
    (degrees : Option (List ℚ)) (hnum : 1 ≤ num) (hids : num ≤ ids.length)
    (hcap : num ≤ results.length) :
    ∃ r, sweep_cut rows ids results num degrees = some r ∧
      (∀ j, j < r.actual_length → r.results[j]? = ids[j]? ∧ ids[j]? ≠ none) ∧
      r.results.take r.actual_length = ids.take r.actual_length := by
  obtain ⟨i, hi, _, hr⟩ := sweep_cut_eq rows ids results num degrees hnum
  have hcp := copy_results_eq ids results i (by omega) (by omega)
  refine ⟨_, hr, ?_, ?_⟩
  · intro j hj
    simp only at hj
    constructor
    · simp only [hcp]
      rw [List.getElem?_append_left (by simp; omega), List.getElem?_take_of_lt hj]
    · rw [List.getElem?_eq_getElem (by omega)]
      simp
  · simp only [hcp]
    rw [List.take_append_of_le_length (by simp; omega), List.take_take]
    simp

theorem sweep_cut_results_eq_ids_witness :
    (1 ≤ 4 ∧ 4 ≤ [1, 2, 3, 4].length ∧ 4 ≤ [9, 9, 9, 9, 9].length) ∧
    ∃ r, sweep_cut { pathGraph with ai := [1, 2, 4, 6, 7], aj := [2, 1, 3, 2, 4, 3], offset := 1 }
        [1, 2, 3, 4] [9, 9, 9, 9, 9] 4 none = some r ∧
      (∀ j, j < r.actual_length → r.results[j]? = [1, 2, 3, 4][j]? ∧ [1, 2, 3, 4][j]? ≠ none) ∧
      r.results.take r.actual_length = [1, 2, 3, 4].take r.actual_length :=
  ⟨by decide,
    sweep_cut_results_eq_ids _ [1, 2, 3, 4] [9, 9, 9, 9, 9] 4 none (by decide) (by decide)
      (by decide)⟩

/-- C3, as stated, fails: on the well-formed graph `fanInGraph` (non-negative
weights) with the distinct valid candidates `[0, 1, 2]` the per-prefix conductances
are `1, -1, 1`, and `sweep_cut` stores `1` in `ret_cond`, not the minimum `-1`. -/
theorem sweep_cut_min_cond_counterexample :
    WellFormed fanInGraph ∧ NonNegWeights fanInGraph ∧
    ValidIds fanInGraph [0, 1, 2] 3 ∧ DistinctIds [0, 1, 2] 3 ∧
    ∃ r, sweep_cut fanInGraph [0, 1, 2] [0, 0, 0] 3 none = some r ∧ r.ret_cond = 1 ∧
      ∃ j, j < 3 ∧ prefix_cond fanInGraph [0, 1, 2] 3 none j = -1 ∧
        prefix_cond fanInGraph [0, 1, 2] 3 none j < r.ret_cond :=
  ⟨by decide, by decide!, by decide, by decide,
    { results := [0, 1, 2], ret_cond := 1, actual_length := 3 }, by decide!, rfl,
    1, by decide, by decide!, by decide!⟩

/-- C3, amended: when `num ≥ 1` and no per-prefix conductance equals `-1` (the value
that marks the minimum as not yet set), the conductance stored in `ret_cond` is the
minimum of `conductance_i` over all `num` prefixes: it is one of them and no
prefix has a smaller one. -/
theorem sweep_cut_min_cond (rows : sparserow) (ids results : List Nat) (num : Nat)
    (degrees : Option (List ℚ)) (hnum : 1 ≤ num)
    (hne : ∀ i, i < num → prefix_cond rows ids num degrees i ≠ -1) :
    ∃ r, sweep_cut rows ids results num degrees = some r ∧
      (∃ i, i < num ∧ r.ret_cond = prefix_cond rows ids num degrees i) ∧
      (∀ j, j < num → r.ret_cond ≤ prefix_cond rows ids num degrees j) := by
  obtain ⟨i, hi, h2, hr⟩ := sweep_cut_eq rows ids results num degrees hnum
  obtain ⟨i', _, h2', _, hmin, _⟩ :=
    track_first_min (prefix_cond rows ids num degrees) num hnum hne
  have hii : i' = i := by
    rw [h2] at h2'
    exact (Option.some.inj h2').symm
  subst hii
  exact ⟨_, hr, ⟨i', hi, rfl⟩, hmin⟩

theorem sweep_cut_min_cond_witness :
    (1 ≤ 4 ∧ ∀ i, i < 4 → prefix_cond pathGraph [0, 1, 2, 3] 4 none i ≠ -1) ∧
    ∃ r, sweep_cut pathGraph [0, 1, 2, 3] [9, 9, 9, 9] 4 none = some r ∧
      (∃ i, i < 4 ∧ r.ret_cond = prefix_cond pathGraph [0, 1, 2, 3] 4 none i) ∧
      (∀ j, j < 4 → r.ret_cond ≤ prefix_cond pathGraph [0, 1, 2, 3] 4 none j) :=
  ⟨by decide!,
    sweep_cut_min_cond pathGraph [0, 1, 2, 3] [9, 9, 9, 9] 4 none (by decide) (by decide!)⟩

/-- C4, as stated, fails: on the well-formed graph `tieGraph` (non-negative weights)
with the distinct valid candidates `[0, 1, 2]` the per-prefix conductances are
`1, -1, -1`; `sweep_cut` returns length 3, although the shorter prefix of length 2
has the same conductance `-1`. -/
theorem sweep_cut_first_min_counterexample :
    WellFormed tieGraph ∧ NonNegWeights tieGraph ∧
    ValidIds tieGraph [0, 1, 2] 3 ∧ DistinctIds [0, 1, 2] 3 ∧
    ∃ r, sweep_cut tieGraph [0, 1, 2] [0, 0, 0] 3 none = some r ∧ r.actual_length = 3 ∧
      ∃ j, j < r.actual_length - 1 ∧
        ¬ prefix_cond tieGraph [0, 1, 2] 3 none (r.actual_length - 1)
            < prefix_cond tieGraph [0, 1, 2] 3 none j :=
  ⟨by decide, by decide!, by decide, by decide,
    { results := [0, 1, 2], ret_cond := -1, actual_length := 3 }, by decide!, rfl,
    1, by decide, by decide!⟩

/-- C4, amended: when `num ≥ 1` and no per-prefix conductance equals `-1`, the
returned length `k` is the smallest prefix length of minimum conductance:
`conductance_{k-1}` is at most every `conductance_j`, and strictly below
`conductance_j` for every shorter prefix `j < k - 1`. -/
theorem sweep_cut_first_min (rows : sparserow) (ids results : List Nat) (num : Nat)
    (degrees : Option (List ℚ)) (hnum : 1 ≤ num)
    (hne : ∀ i, i < num → prefix_cond rows ids num degrees i ≠ -1) :
    ∃ r, sweep_cut rows ids results num degrees = some r ∧
      1 ≤ r.actual_length ∧ r.actual_length ≤ num ∧
      (∀ j, j < num → prefix_cond rows ids num degrees (r.actual_length - 1)
        ≤ prefix_cond rows ids num degrees j) ∧
      (∀ j, j < r.actual_length - 1 → prefix_cond rows ids num degrees (r.actual_length - 1)
        < prefix_cond rows ids num degrees j) := by
  obtain ⟨i, hi, h2, hr⟩ := sweep_cut_eq rows ids results num degrees hnum
  obtain ⟨i', _, h2', _, hmin, hfirst⟩ :=
    track_first_min (prefix_cond rows ids num degrees) num hnum hne
  have hii : i' = i := by
    rw [h2] at h2'
    exact (Option.some.inj h2').symm
  subst hii
  refine ⟨_, hr, by simp, by simp; omega, ?_, ?_⟩
  · simpa using hmin
  · simpa using hfirst

theorem sweep_cut_first_min_witness :
    (1 ≤ 3 ∧ ∀ i, i < 3 → prefix_cond pathGraph [3, 2, 1] 3 none i ≠ -1) ∧
    ∃ r, sweep_cut pathGraph [3, 2, 1] [9, 9, 9] 3 none = some r ∧
      1 ≤ r.actual_length ∧ r.actual_length ≤ 3 ∧
      (∀ j, j < 3 → prefix_cond pathGraph [3, 2, 1] 3 none (r.actual_length - 1)
        ≤ prefix_cond pathGraph [3, 2, 1] 3 none j) ∧
      (∀ j, j < r.actual_length - 1 → prefix_cond pathGraph [3, 2, 1] 3 none (r.actual_length - 1)
        < prefix_cond pathGraph [3, 2, 1] 3 none j) :=
  ⟨by decide!,
    sweep_cut_first_min pathGraph [3, 2, 1] [9, 9, 9] 3 none (by decide) (by decide!)⟩

/-- C8: when the supplied degree vector holds the true row-weight sum of every
vertex (`degrees[v] = get_degree(graph, v)`, indexed by zero-based internal id) and
the candidates are vertex ids of the graph, `sweep_cut` returns exactly what it
returns with the degree vector absent: same output buffer, conductance and length. -/
theorem sweep_cut_true_degrees (rows : sparserow) (ids results : List Nat) (num : Nat)
    (d : List ℚ) (hval : ValidIds rows ids num)
    (hdeg : ∀ v, v < rows.m → d.getD v 0 = get_degree rows v) :
    sweep_cut rows ids results num (some d) = sweep_cut rows ids results num none := by
  have h : sweep_loop rows ids num (some d) num = sweep_loop rows ids num none num := by
    apply sweep_loop_degrees_congr
    intro i hi
    have := hval.2 i hi
    exact hdeg _ (by omega)
  simp only [sweep_cut, h]

theorem sweep_cut_true_degrees_witness :
    (ValidIds pathGraph [2, 1, 0, 3] 4 ∧
      ∀ v, v < pathGraph.m → [1, 2, 2, 1].getD v (0 : ℚ) = get_degree pathGraph v) ∧
    sweep_cut pathGraph [2, 1, 0, 3] [9, 9, 9, 9] 4 (some [1, 2, 2, 1])
      = sweep_cut pathGraph [2, 1, 0, 3] [9, 9, 9, 9] 4 none :=
  ⟨by decide!,
    sweep_cut_true_degrees pathGraph [2, 1, 0, 3] [9, 9, 9, 9] 4 [1, 2, 2, 1] (by decide)
      (by decide!)⟩

/-- C9: on the path graph 0-1-2-3 (`ai = [0,1,3,5,6]`, `aj = [1,0,2,1,3,2]`, unit
weights, offset 0) with candidate order `[0,1,2,3]`, with degrees `[1,2,2,1]` or
degrees absent, the total volume is 6, the per-prefix cut sizes are `1, 1, 1, 0`,
the volumes `1, 3, 5, 6`, the conductances `1, 1/3, 1, 1`, and `sweep_cut` returns
length 2 and conductance `1/3` and writes `[0, 1]` to the front of the buffer. -/
theorem sweep_cut_path_graph :
    total_degree pathGraph = 6 ∧
    (List.range 4).map (prefix_cut pathGraph [0, 1, 2, 3] 4 none) = [1, 1, 1, 0] ∧
    (List.range 4).map (prefix_volume pathGraph [0, 1, 2, 3] none) = [1, 3, 5, 6] ∧
    (List.range 4).map (prefix_cond pathGraph [0, 1, 2, 3] 4 none) = [1, 1 / 3, 1, 1] ∧
    (List.range 4).map (prefix_cond pathGraph [0, 1, 2, 3] 4 (some [1, 2, 2, 1]))
      = [1, 1 / 3, 1, 1] ∧
    (List.range 4).map
        (fun k => (sweep_loop pathGraph [0, 1, 2, 3] 4 none (k + 1)).min_cond)
      = [1, 1 / 3, 1 / 3, 1 / 3] ∧
    sweep_cut pathGraph [0, 1, 2, 3] [9, 9, 9, 9] 4 none
      = some { results := [0, 1, 9, 9], ret_cond := 1 / 3, actual_length := 2 } ∧
    sweep_cut pathGraph [0, 1, 2, 3] [9, 9, 9, 9] 4 (some [1, 2, 2, 1])
      = some { results := [0, 1, 9, 9], ret_cond := 1 / 3, actual_length := 2 } := by
  decide!

/-- C10: for `num ≥ 1` pairwise different candidate ids, each at least `offset`, if
`sweep_cut` returns length `k`, then `sweep_cut` on the same graph and degrees
argument with the returned prefix `ids[0..k)` as the candidate sequence (`num = k`)
returns length `k` again, with the same conductance. -/
theorem sweep_cut_idempotent (rows : sparserow) (ids results results2 : List Nat) (num : Nat)
    (degrees : Option (List ℚ)) (hnum : 1 ≤ num) (hdist : DistinctIds ids num)
    (hoff : ∀ i, i < num → rows.offset ≤ ids.getD i 0) :
    ∃ r, sweep_cut rows ids results num degrees = some r ∧
      ∃ r2, sweep_cut rows (ids.take r.actual_length) results2 r.actual_length degrees
          = some r2 ∧
        r2.actual_length = r.actual_length ∧ r2.ret_cond = r.ret_cond := by
  have hinj := injectiveIds_of_distinct rows ids num hdist hoff
  obtain ⟨i, hi, h2, hr⟩ := sweep_cut_eq rows ids results num degrees hnum
  refine ⟨_, hr, ?_⟩
  simp only
  obtain ⟨i2, hi2, h22, hr2⟩ :=
    sweep_cut_eq rows (ids.take (i + 1)) results2 (i + 1) degrees (by omega)
  have hst := (track_stable (prefix_cond rows ids num degrees) num i h2).2
  have hcg : track (prefix_cond rows (ids.take (i + 1)) (i + 1) degrees) (i + 1)
      = track (prefix_cond rows ids num degrees) (i + 1) :=
    track_congr _ _ _
      (fun j hj => prefix_cond_take rows ids num degrees hinj (i + 1) j (by omega) hj)
  have hii : i2 = i := by
    rw [hcg, hst, h2] at h22
    exact (Option.some.inj h22).symm
  subst hii
  refine ⟨_, hr2, rfl, ?_⟩
  exact prefix_cond_take rows ids num degrees hinj (i2 + 1) i2 (by omega) (by omega)

theorem sweep_cut_idempotent_witness :
    (1 ≤ 4 ∧ DistinctIds [0, 1, 2, 3] 4 ∧
      ∀ i, i < 4 → pathGraph.offset ≤ [0, 1, 2, 3].getD i 0) ∧
    ∃ r, sweep_cut pathGraph [0, 1, 2, 3] [9, 9, 9, 9] 4 none = some r ∧
      ∃ r2, sweep_cut pathGraph ([0, 1, 2, 3].take r.actual_length) [7, 7] r.actual_length none
          = some r2 ∧
        r2.actual_length = r.actual_length ∧ r2.ret_cond = r.ret_cond :=
  ⟨by decide,
    sweep_cut_idempotent pathGraph [0, 1, 2, 3] [9, 9, 9, 9] [7, 7] 4 none (by decide)
      (by decide) (by decide)⟩

/-! ## Claims about the ordering step -/

/-- C6, as stated, fails when scores tie.  Seventeen candidates `0, …, 16` with the
seventeen equal scores `1, …, 1` are in descending (non-increasing) order; the
partitioning pass of `std::sort`, which runs on more than sixteen elements, moves
equal elements, and leaves the ids in the order `8, 16, 15, …, 9, 0, 7, 6, …, 1`.  On
`seventeenGraph` the sorting entry point then returns length 1, conductance 1 and
result `[8]`, while the non-sorting entry point on `0, …, 16` returns length 2,
conductance `1/3` and result `[0, 1]`. -/
theorem sorting_seventeen_ties_counterexample :
    (List.range 17).length = 17 ∧ (List.replicate 17 (1 : ℚ)).length = 17 ∧
    (List.replicate 17 (1 : ℚ)).Pairwise (fun x y => x ≥ y) ∧
    WellFormed seventeenGraph ∧ SymmetricGraph seventeenGraph ∧
    ValidIds seventeenGraph (List.range 17) 17 ∧ DistinctIds (List.range 17) 17 ∧
    (std_sort myobject (pair_nodes (List.replicate 17 1) (List.range 17) 17)).map Prod.fst
      = [8, 16, 15, 14, 13, 12, 11, 10, 9, 0, 7, 6, 5, 4, 3, 2, 1] ∧
    sweepcut_with_sorting (List.replicate 17 1) (List.range 17) (List.replicate 17 99) 17 17
        seventeenGraph.ai seventeenGraph.aj seventeenGraph.a 0 none
      = some { results := 8 :: List.replicate 16 99, ret_cond := 1, actual_length := 1 } ∧
    sweepcut_without_sorting (List.range 17) (List.replicate 17 99) 17 17
        seventeenGraph.ai seventeenGraph.aj seventeenGraph.a 0 none
      = some { results := 0 :: 1 :: List.replicate 15 99, ret_cond := 1 / 3,
               actual_length := 2 } := by
  refine ⟨by decide, by decide, by decide!, by decide!, by decide!, by decide!, by decide!,
    by decide!, by decide!, by decide!⟩

/-- C6, amended: for every graph, every candidate sequence `ids` of length `num` and
every aligned score vector that is strictly descending (no two scores equal),
`sweepcut_with_sorting` returns the same length, conductance and result ids as
`sweepcut_without_sorting` on `ids`. -/
theorem sorting_strictly_descending_same (value : List ℚ) (ids results : List Nat)
    (num n : Nat) (ai aj : List Nat) (a : List ℚ) (offset : Nat) (degrees : Option (List ℚ))
    (hi : ids.length = num) (hv : value.length = num)
    (hdesc : value.Pairwise (fun x y => x > y)) :
    sweepcut_with_sorting value ids results num n ai aj a offset degrees
      = sweepcut_without_sorting ids results num n ai aj a offset degrees := by
  have hzip : (ids.zip value).Pairwise (fun x y => x.2 > y.2) := by
    have h1 : ((ids.zip value).map Prod.snd).Pairwise (fun x y => x > y) := by
      rw [List.map_snd_zip _ _ (by omega)]
      exact hdesc
    exact List.pairwise_map.mp h1
  have hfix := stdSort_fixes_strictly_descending (std_sort myobject) stdSort_std_sort
    (ids.zip value) hzip
  unfold sweepcut_with_sorting sweepcut_without_sorting
  simp only [pair_nodes_eq value ids num hi hv, hfix]
  rw [project_ids_eq _ num (by simp; omega), List.map_fst_zip _ _ (by omega)]

theorem sorting_strictly_descending_same_witness :
    ([1, 0, 3].length = 3 ∧ ([3, 2, 1] : List ℚ).length = 3 ∧
      ([3, 2, 1] : List ℚ).Pairwise (fun x y => x > y)) ∧
    sweepcut_with_sorting [3, 2, 1] [1, 0, 3] [9, 9, 9] 3 4
        [0, 1, 3, 5, 6] [1, 0, 2, 1, 3, 2] [1, 1, 1, 1, 1, 1] 0 none
      = sweepcut_without_sorting [1, 0, 3] [9, 9, 9] 3 4
        [0, 1, 3, 5, 6] [1, 0, 2, 1, 3, 2] [1, 1, 1, 1, 1, 1] 0 none :=
  ⟨⟨by decide, by decide, by decide!⟩,
    sorting_strictly_descending_same [3, 2, 1] [1, 0, 3]
      [9, 9, 9] 3 4 [0, 1, 3, 5, 6] [1, 0, 2, 1, 3, 2] [1, 1, 1, 1, 1, 1] 0 none
      (by decide) (by decide) (by decide!)⟩

/-- C7: for every candidate sequence and score sequence of equal length `num` (zero
included), the ordering step of `sweepcut_with_sorting` (pairing, `std::sort` with
`myobject`, projection) yields pairs that are a permutation of the input
`(id, score)` pairs with non-increasing scores; `newids` is the sequence of their
ids, a permutation of `ids`, and it is the sequence that `sweepcut_with_sorting`
hands to `sweep_cut`. -/
theorem ordering_step_sorted_perm (value : List ℚ) (ids results : List Nat) (num n : Nat)
    (ai aj : List Nat) (a : List ℚ) (offset : Nat) (degrees : Option (List ℚ))
    (hi : ids.length = num) (hv : value.length = num) :
    ∃ nodes : List (Nat × ℚ),
      nodes.Perm (ids.zip value) ∧
      nodes.Pairwise (fun x y => x.2 ≥ y.2) ∧
      (nodes.map Prod.fst).Perm ids ∧
      nodes = std_sort myobject (pair_nodes value ids num) ∧
      project_ids nodes num = nodes.map Prod.fst ∧
      sweepcut_with_sorting value ids results num n ai aj a offset degrees
        = sweep_cut { m := n, n := n, ai := ai, aj := aj, a := a, offset := offset }
            (nodes.map Prod.fst) results num degrees := by
  obtain ⟨hperm, hsorted⟩ := stdSort_std_sort (pair_nodes value ids num)
  have hpn := pair_nodes_eq value ids num hi hv
  have hlen : (std_sort myobject (pair_nodes value ids num)).length = num := by
    rw [hperm.length_eq, hpn]
    simp
    omega
  have hproj := project_ids_eq _ num hlen
  have hperm2 : (std_sort myobject (pair_nodes value ids num)).Perm (ids.zip value) :=
    hperm.trans (by rw [hpn])
  refine ⟨std_sort myobject (pair_nodes value ids num), ?_, ?_, ?_, rfl, hproj, ?_⟩
  · exact hperm2
  · exact List.Pairwise.imp (fun {x y} h => (myobject_false_iff x y).mp h) hsorted
  · have := hperm2.map Prod.fst
    rwa [List.map_fst_zip _ _ (by omega)] at this
  · unfold sweepcut_with_sorting
    simp only [hproj]

theorem ordering_step_sorted_perm_witness :
    ([5, 6, 7, 8].length = 4 ∧ ([1 / 2, 3, 1 / 2, 2] : List ℚ).length = 4) ∧
    ∃ nodes : List (Nat × ℚ),
      nodes.Perm ([5, 6, 7, 8].zip [1 / 2, 3, 1 / 2, 2]) ∧
      nodes.Pairwise (fun x y => x.2 ≥ y.2) ∧
      (nodes.map Prod.fst).Perm [5, 6, 7, 8] ∧
      nodes = std_sort myobject (pair_nodes [1 / 2, 3, 1 / 2, 2] [5, 6, 7, 8] 4) ∧
      project_ids nodes 4 = nodes.map Prod.fst ∧
      sweepcut_with_sorting [1 / 2, 3, 1 / 2, 2] [5, 6, 7, 8] [9, 9, 9, 9] 4 9
          [0, 0, 0, 0, 0, 0, 1, 2, 2, 2] [6, 5] [1, 1] 0 none
        = sweep_cut { m := 9, n := 9, ai := [0, 0, 0, 0, 0, 0, 1, 2, 2, 2], aj := [6, 5],
                      a := [1, 1], offset := 0 }
            (nodes.map Prod.fst) [9, 9, 9, 9] 4 none :=
  ⟨⟨by decide, by decide⟩,
    ordering_step_sorted_perm [1 / 2, 3, 1 / 2, 2] [5, 6, 7, 8] [9, 9, 9, 9] 4 9
      [0, 0, 0, 0, 0, 0, 1, 2, 2, 2] [6, 5] [1, 1] 0 none (by decide) (by decide)⟩

/-! ## Loop sums as finite sums -/

theorem list_sum_range (f : Nat → ℚ) (n : Nat) :
    ((List.range n).map f).sum = ∑ i in Finset.range n, f i := by
  induction n with
  | zero => simp
  | succ n ih => simp [List.range_succ, Finset.sum_range_succ, ih]

theorem list_sum_range' (f : Nat → ℚ) (lo len : Nat) :
    ((List.range' lo len).map f).sum = ∑ i in Finset.range len, f (lo + i) := by
  rw [List.range'_eq_map_range, List.map_map, list_sum_range]
  rfl

theorem get_degree_eq_sum (rows : sparserow) (v : Nat) :
    get_degree rows v
      = ∑ i in Finset.range ((rows.ai.getD (v + 1) 0 - rows.offset) - (rows.ai.getD v 0 - rows.offset)),
          rows.a.getD (rows.ai.getD v 0 - rows.offset + i) 0 := by
  unfold get_degree
  rw [forLoop_add_sum, list_sum_range', zero_add]

theorem edge_weight_eq_sum (rows : sparserow) (v u : Nat) :
    edge_weight rows v u
      = ∑ i in Finset.range ((rows.ai.getD (v + 1) 0 - rows.offset) - (rows.ai.getD v 0 - rows.offset)),
          if rows.aj.getD (rows.ai.getD v 0 - rows.offset + i) 0 - rows.offset = u then
            rows.a.getD (rows.ai.getD v 0 - rows.offset + i) 0
          else 0 := by
  unfold edge_weight
  rw [list_sum_range']

theorem foldl_sub_eq (l : List Nat) (c : Nat → Prop) [DecidablePred c] (w : Nat → ℚ)
    (init : ℚ) :
    l.foldl (fun cc j => if c j then cc - 2 * w j else cc) init
      = init - 2 * (l.map (fun j => if c j then w j else 0)).sum := by
  induction l generalizing init with
  | nil => simp
  | cons x xs ih =>
    simp only [List.foldl_cons, List.map_cons, List.sum_cons]
    rw [ih]
    split <;> ring

theorem cut_change_eq_sum (rows : sparserow) (rank : RankMap) (v : Nat) (deg : ℚ) :
    cut_change rows rank v deg
      = deg - 2 * ∑ i in Finset.range ((rows.ai.getD (v + 1) 0 - rows.offset)
            - (rows.ai.getD v 0 - rows.offset)),
          if earlier rank (rows.aj.getD (rows.ai.getD v 0 - rows.offset + i) 0 - rows.offset) v
          then rows.a.getD (rows.ai.getD v 0 - rows.offset + i) 0 else 0 := by
  unfold cut_change forLoop
  have h := foldl_sub_eq
    (List.range' (rows.ai.getD v 0 - rows.offset)
      ((rows.ai.getD (v + 1) 0 - rows.offset) - (rows.ai.getD v 0 - rows.offset)))
    (fun j => earlier rank (rows.aj.getD j 0 - rows.offset) v)
    (fun j => rows.a.getD j 0) deg
  rw [list_sum_range'] at h
  simpa only [earlier] using h

/-! ## Consequences of well-formedness -/

theorem ai_mono (rows : sparserow) (hwf : WellFormed rows) (v w : Nat) (hvw : v ≤ w)
    (hw : w ≤ rows.m) : rows.ai.getD v 0 ≤ rows.ai.getD w 0 := by
  induction w with
  | zero =>
    have : v = 0 := by omega
    rw [this]
  | succ w ih =>
    rcases Nat.eq_or_lt_of_le hvw with h | h
    · rw [h]
    · exact le_trans (ih (by omega) (by omega)) (hwf.2.2.2.1 w (by omega))

theorem offset_le_ai (rows : sparserow) (hwf : WellFormed rows) (v : Nat) (hv : v ≤ rows.m) :
    rows.offset ≤ rows.ai.getD v 0 := by
  have h := ai_mono rows hwf 0 v (by omega) hv
  rw [hwf.2.2.1] at h
  exact h

theorem row_entry_in_range (rows : sparserow) (hwf : WellFormed rows) (v : Nat)
    (hv : v < rows.m) (i : Nat)
    (hi : i < (rows.ai.getD (v + 1) 0 - rows.offset) - (rows.ai.getD v 0 - rows.offset)) :
    rows.aj.getD (rows.ai.getD v 0 - rows.offset + i) 0 - rows.offset < rows.m := by
  have h1 := ai_mono rows hwf (v + 1) rows.m (by omega) (by omega)
  have h2 := hwf.2.2.2.2.1
  have h3 := hwf.2.2.2.2.2.2 (rows.ai.getD v 0 - rows.offset + i) (by omega)
  omega

theorem row_sum_by_target (rows : sparserow) (hwf : WellFormed rows) (v : Nat)
    (hv : v < rows.m) (P : Nat → Prop) [DecidablePred P] :
    (∑ i in Finset.range ((rows.ai.getD (v + 1) 0 - rows.offset)
          - (rows.ai.getD v 0 - rows.offset)),
        if P (rows.aj.getD (rows.ai.getD v 0 - rows.offset + i) 0 - rows.offset)
        then rows.a.getD (rows.ai.getD v 0 - rows.offset + i) 0 else 0)
      = ∑ u in Finset.range rows.m, if P u then edge_weight rows v u else 0 := by
  have hr : ∀ u, (if P u then edge_weight rows v u else 0)
      = ∑ i in Finset.range ((rows.ai.getD (v + 1) 0 - rows.offset)
          - (rows.ai.getD v 0 - rows.offset)),
        if P u ∧ rows.aj.getD (rows.ai.getD v 0 - rows.offset + i) 0 - rows.offset = u
        then rows.a.getD (rows.ai.getD v 0 - rows.offset + i) 0 else 0 := by
    intro u
    rw [edge_weight_eq_sum]
    by_cases hP : P u
    · simp [hP]
    · simp [hP]
  simp only [hr]
  rw [Finset.sum_comm]
  apply Finset.sum_congr rfl
  intro i hi
  have hin := row_entry_in_range rows hwf v hv i (Finset.mem_range.mp hi)
  rw [Finset.sum_eq_single
    (rows.aj.getD (rows.ai.getD v 0 - rows.offset + i) 0 - rows.offset)]
  · simp
  · intro u _ hne
    rw [if_neg]
    intro h
    exact hne h.2.symm
  · intro h
    exact absurd (Finset.mem_range.mpr hin) h

theorem get_degree_eq_weighted_degree (rows : sparserow) (hwf : WellFormed rows) (v : Nat)
    (hv : v < rows.m) : get_degree rows v = weighted_degree rows v := by
  rw [get_degree_eq_sum, weighted_degree, list_sum_range]
  have h := row_sum_by_target rows hwf v hv (fun _ => True)
  simpa using h

theorem total_degree_eq_sum (rows : sparserow) (hwf : WellFormed rows) :
    total_degree rows = ∑ v in Finset.range rows.m, get_degree rows v := by
  unfold total_degree
  rw [forLoop_add_sum, list_sum_range', zero_add, Nat.sub_zero]
  have key : ∀ k, k ≤ rows.m →
      (∑ i in Finset.range (rows.ai.getD k 0 - rows.offset), rows.a.getD (0 + i) 0)
        = ∑ v in Finset.range k, get_degree rows v := by
    intro k
    induction k with
    | zero =>
      intro _
      rw [hwf.2.2.1]
      simp
    | succ k ih =>
      intro hk
      have hmono := hwf.2.2.2.1 k (by omega)
      have hsplit : rows.ai.getD (k + 1) 0 - rows.offset
          = (rows.ai.getD k 0 - rows.offset)
            + ((rows.ai.getD (k + 1) 0 - rows.offset) - (rows.ai.getD k 0 - rows.offset)) := by
        omega
      rw [Finset.sum_range_succ, ← ih (by omega), get_degree_eq_sum]
      conv_lhs => rw [hsplit]
      rw [Finset.sum_range_add]
      simp
  exact key rows.m (le_refl _)

/-! ## The cut of a growing vertex set -/

theorem cut_insert (W : Nat → Nat → ℚ) (n : Nat) (T : Finset Nat) (x : Nat)
    (hT : T ⊆ Finset.range n) (hx : x < n) (hxT : x ∉ T)
    (hsym : ∀ v, v < n → ∀ u, u < n → W v u = W u v) :
    (∑ v in insert x T, ∑ u in Finset.range n \ insert x T, W v u)
        + ∑ v in insert x T, W v v
      = (∑ v in T, ∑ u in Finset.range n \ T, W v u) + ∑ v in T, W v v
          + (∑ u in Finset.range n, W x u) - 2 * ∑ u in T, W x u := by
  have hxm : x ∈ Finset.range n \ T :=
    Finset.mem_sdiff.mpr ⟨Finset.mem_range.mpr hx, hxT⟩
  have herase : ∀ v, ∑ u in Finset.range n \ insert x T, W v u
      = (∑ u in Finset.range n \ T, W v u) - W v x := by
    intro v
    rw [Finset.sdiff_insert, Finset.sum_erase_eq_sub hxm]
  have hrow : ∑ u in Finset.range n \ T, W x u
      = (∑ u in Finset.range n, W x u) - ∑ u in T, W x u := by
    rw [← Finset.sum_sdiff hT]
    ring
  have hcol : ∑ v in T, W v x = ∑ u in T, W x u := by
    apply Finset.sum_congr rfl
    intro v hv
    exact hsym v (Finset.mem_range.mp (hT hv)) x hx
  rw [Finset.sum_insert hxT, Finset.sum_insert hxT]
  simp only [herase]
  rw [Finset.sum_sub_distrib, hrow, hcol]
  ring

/-! ## Prefix sets -/

theorem prefix_set_succ (rows : sparserow) (ids : List Nat) (k : Nat) (hk : k < ids.length) :
    prefix_set rows ids (k + 1)
      = prefix_set rows ids k ++ [ids.getD k 0 - rows.offset] := by
  unfold prefix_set
  rw [List.take_succ, List.map_append]
  simp [List.getD_eq_getElem?_getD, List.getElem?_eq_getElem hk]

theorem mem_prefix_set (rows : sparserow) (ids : List Nat) (k : Nat) (hk : k ≤ ids.length)
    (u : Nat) :
    u ∈ prefix_set rows ids k ↔ ∃ p, p < k ∧ ids.getD p 0 - rows.offset = u := by
  induction k with
  | zero => simp [prefix_set]
  | succ k ih =>
    rw [prefix_set_succ rows ids k (by omega), List.mem_append, ih (by omega)]
    constructor
    · rintro (⟨p, hp, hpu⟩ | h)
      · exact ⟨p, by omega, hpu⟩
      · exact ⟨k, by omega, (List.mem_singleton.mp h).symm⟩
    · rintro ⟨p, hp, hpu⟩
      rcases Nat.lt_succ_iff_lt_or_eq.mp hp with hlt | heq
      · exact Or.inl ⟨p, hlt, hpu⟩
      · right
        rw [← hpu, heq]
        exact List.mem_singleton.mpr rfl

theorem prefix_set_subset (rows : sparserow) (ids : List Nat) (num : Nat)
    (hval : ValidIds rows ids num) (k : Nat) (hk : k ≤ num) :
    (prefix_set rows ids k).toFinset ⊆ Finset.range rows.m := by
  intro u hu
  rw [List.mem_toFinset, mem_prefix_set rows ids k (by have := hval.1; omega)] at hu
  obtain ⟨p, hp, hpu⟩ := hu
  have := hval.2 p (by omega)
  rw [Finset.mem_range]
  omega

theorem prefix_set_toFinset_succ (rows : sparserow) (ids : List Nat) (k : Nat)
    (hk : k < ids.length) :
    (prefix_set rows ids (k + 1)).toFinset
      = insert (ids.getD k 0 - rows.offset) (prefix_set rows ids k).toFinset := by
  rw [prefix_set_succ rows ids k hk]
  ext u
  simp [or_comm]

theorem not_mem_prefix_set (rows : sparserow) (ids : List Nat) (num : Nat)
    (hinj : InjectiveIds rows ids num) (k : Nat) (hk : k < num) (hlen : num ≤ ids.length) :
    ids.getD k 0 - rows.offset ∉ (prefix_set rows ids k).toFinset := by
  rw [List.mem_toFinset, mem_prefix_set rows ids k (by omega)]
  rintro ⟨p, hp, hpu⟩
  have := hinj p (by omega) k hk hpu
  omega

/-! ## Textbook quantities as finite sums -/

theorem sum_ite_mem_list (f : Nat → ℚ) (S : List Nat) (n : Nat)
    (h : S.toFinset ⊆ Finset.range n) :
    (∑ v in Finset.range n, if v ∈ S then f v else 0) = ∑ v in S.toFinset, f v := by
  have h1 : (∑ v in Finset.range n, if v ∈ S then f v else 0)
      = ∑ v in Finset.range n, if v ∈ S.toFinset then f v else 0 := by
    apply Finset.sum_congr rfl
    intro v _
    simp
  rw [h1, Finset.sum_ite_mem, Finset.inter_eq_right.mpr h]

theorem sum_ite_not_mem_list (f : Nat → ℚ) (S : List Nat) (n : Nat) :
    (∑ v in Finset.range n, if v ∈ S then 0 else f v)
      = ∑ v in Finset.range n \ S.toFinset, f v := by
  rw [Finset.sdiff_eq_filter, Finset.sum_filter]
  apply Finset.sum_congr rfl
  intro v _
  by_cases hv : v ∈ S <;> simp [hv]

theorem volume_eq_sum (rows : sparserow) (S : List Nat)
    (h : S.toFinset ⊆ Finset.range rows.m) :
    volume rows S = ∑ v in S.toFinset, weighted_degree rows v := by
  rw [volume, list_sum_range, sum_ite_mem_list _ _ _ h]

theorem complement_volume_eq_sum (rows : sparserow) (S : List Nat) :
    complement_volume rows S
      = ∑ v in Finset.range rows.m \ S.toFinset, weighted_degree rows v := by
  rw [complement_volume, list_sum_range, sum_ite_not_mem_list]

theorem cut_weight_eq_sum (rows : sparserow) (S : List Nat)
    (h : S.toFinset ⊆ Finset.range rows.m) :
    cut_weight rows S
      = ∑ v in S.toFinset, ∑ u in Finset.range rows.m \ S.toFinset, edge_weight rows v u := by
  rw [cut_weight, list_sum_range]
  simp only [list_sum_range, sum_ite_not_mem_list]
  rw [sum_ite_mem_list _ _ _ h]

/-! ## The loop invariant of the sweep -/

theorem vertex_degree_true (rows : sparserow) (degrees : Option (List ℚ)) (v : Nat)
    (htrue : TrueDegrees rows degrees) (hv : v < rows.m) :
    vertex_degree rows degrees v = get_degree rows v := by
  cases degrees with
  | none => rfl
  | some d => exact htrue d rfl v hv

theorem cut_change_at (rows : sparserow) (ids : List Nat) (num : Nat)
    (degrees : Option (List ℚ)) (hwf : WellFormed rows) (hval : ValidIds rows ids num)
    (hinj : InjectiveIds rows ids num) (htrue : TrueDegrees rows degrees)
    (k : Nat) (hk : k < num) :
    cut_change rows (build_rank rows ids num) (ids.getD k 0 - rows.offset)
        (vertex_degree rows degrees (ids.getD k 0 - rows.offset))
      = (∑ u in Finset.range rows.m, edge_weight rows (ids.getD k 0 - rows.offset) u)
          - 2 * ∑ u in (prefix_set rows ids k).toFinset,
              edge_weight rows (ids.getD k 0 - rows.offset) u := by
  have hvk : ids.getD k 0 - rows.offset < rows.m := by
    have := hval.2 k hk
    omega
  rw [cut_change_eq_sum, vertex_degree_true rows degrees _ htrue hvk,
    get_degree_eq_weighted_degree rows hwf _ hvk, weighted_degree, list_sum_range,
    row_sum_by_target rows hwf _ hvk
      (fun u => earlier (build_rank rows ids num) u (ids.getD k 0 - rows.offset))]
  congr 2
  have hsub := prefix_set_subset rows ids num hval k (by omega)
  rw [← sum_ite_mem_list _ _ _ hsub]
  apply Finset.sum_congr rfl
  intro u _
  have h1 := earlier_iff rows ids num hinj k hk u
  have h2 := mem_prefix_set rows ids k (by have := hval.1; omega) u
  by_cases hu : u ∈ prefix_set rows ids k
  · rw [if_pos hu, if_pos (h1.mpr (h2.mp hu))]
  · rw [if_neg hu, if_neg (fun h => hu (h2.mpr (h1.mp h)))]

theorem running_cut (rows : sparserow) (ids : List Nat) (num : Nat)
    (degrees : Option (List ℚ)) (hwf : WellFormed rows) (hsym : SymmetricGraph rows)
    (hval : ValidIds rows ids num) (hinj : InjectiveIds rows ids num)
    (htrue : TrueDegrees rows degrees) (k : Nat) (hk : k ≤ num) :
    ((List.range k).map
        (fun p => cut_change rows (build_rank rows ids num) (ids.getD p 0 - rows.offset)
          (vertex_degree rows degrees (ids.getD p 0 - rows.offset)))).sum
      = (∑ v in (prefix_set rows ids k).toFinset,
            ∑ u in Finset.range rows.m \ (prefix_set rows ids k).toFinset,
              edge_weight rows v u)
          + ∑ v in (prefix_set rows ids k).toFinset, edge_weight rows v v := by
  induction k with
  | zero => simp [prefix_set]
  | succ k ih =>
    have hlen := hval.1
    have hvk : ids.getD k 0 - rows.offset < rows.m := by
      have := hval.2 k (by omega)
      omega
    rw [List.range_succ, List.map_append, List.sum_append, ih (by omega),
      prefix_set_toFinset_succ rows ids k (by omega),
      cut_insert (edge_weight rows) rows.m _ _
        (prefix_set_subset rows ids num hval k (by omega)) hvk
        (not_mem_prefix_set rows ids num hinj k (by omega) hlen) hsym,
      List.map_singleton, List.sum_singleton,
      cut_change_at rows ids num degrees hwf hval hinj htrue k (by omega)]
    ring

theorem running_volume (rows : sparserow) (ids : List Nat) (num : Nat)
    (degrees : Option (List ℚ)) (hwf : WellFormed rows)
    (hval : ValidIds rows ids num) (hinj : InjectiveIds rows ids num)
    (htrue : TrueDegrees rows degrees) (k : Nat) (hk : k ≤ num) :
    ((List.range k).map
        (fun p => vertex_degree rows degrees (ids.getD p 0 - rows.offset))).sum
      = ∑ v in (prefix_set rows ids k).toFinset, weighted_degree rows v := by
  induction k with
  | zero => simp [prefix_set]
  | succ k ih =>
    have hlen := hval.1
    have hvk : ids.getD k 0 - rows.offset < rows.m := by
      have := hval.2 k (by omega)
      omega
    rw [List.range_succ, List.map_append, List.sum_append, ih (by omega),
      prefix_set_toFinset_succ rows ids k (by omega),
      Finset.sum_insert (not_mem_prefix_set rows ids num hinj k (by omega) hlen),
      List.map_singleton, List.sum_singleton,
      vertex_degree_true rows degrees _ htrue hvk,
      get_degree_eq_weighted_degree rows hwf _ hvk]
    ring

theorem total_minus_volume (rows : sparserow) (hwf : WellFormed rows) (S : List Nat)
    (h : S.toFinset ⊆ Finset.range rows.m) :
    total_degree rows - volume rows S = complement_volume rows S := by
  rw [total_degree_eq_sum rows hwf, volume_eq_sum rows S h, complement_volume_eq_sum,
    ← Finset.sum_sdiff h]
  have : ∑ v in Finset.range rows.m \ S.toFinset, get_degree rows v
      = ∑ v in Finset.range rows.m \ S.toFinset, weighted_degree rows v := by
    apply Finset.sum_congr rfl
    intro v hv
    exact get_degree_eq_weighted_degree rows hwf v
      (Finset.mem_range.mp (Finset.mem_sdiff.mp hv).1)
  have h2 : ∑ v in S.toFinset, get_degree rows v
      = ∑ v in S.toFinset, weighted_degree rows v := by
    apply Finset.sum_congr rfl
    intro v hv
    exact get_degree_eq_weighted_degree rows hwf v (Finset.mem_range.mp (h hv))
  rw [this, h2]
  ring

theorem prefix_cond_eq_textbook (rows : sparserow) (ids : List Nat) (num : Nat)
    (degrees : Option (List ℚ)) (hwf : WellFormed rows) (hsym : SymmetricGraph rows)
    (hloop : NoSelfLoops rows) (hval : ValidIds rows ids num)
    (hinj : InjectiveIds rows ids num) (htrue : TrueDegrees rows degrees)
    (i : Nat) (hi : i < num) :
    prefix_cond rows ids num degrees i
      = textbook_conductance rows (prefix_set rows ids (i + 1)) := by
  have hsub := prefix_set_subset rows ids num hval (i + 1) (by omega)
  have hcut : prefix_cut rows ids num degrees i = cut_weight rows (prefix_set rows ids (i + 1)) := by
    unfold prefix_cut
    rw [running_cut rows ids num degrees hwf hsym hval hinj htrue (i + 1) (by omega),
      cut_weight_eq_sum rows _ hsub]
    have : ∑ v in (prefix_set rows ids (i + 1)).toFinset, edge_weight rows v v = 0 := by
      apply Finset.sum_eq_zero
      intro v hv
      exact hloop v (Finset.mem_range.mp (hsub hv))
    rw [this, add_zero]
  have hvol : prefix_volume rows ids degrees i = volume rows (prefix_set rows ids (i + 1)) := by
    unfold prefix_volume
    rw [running_volume rows ids num degrees hwf hval hinj htrue (i + 1) (by omega),
      volume_eq_sum rows _ hsub]
  unfold prefix_cond cur_cond textbook_conductance
  rw [hcut, hvol, total_minus_volume rows hwf _ hsub]

/-! ## Claim about the textbook conductance -/

/-- C5, as stated, fails in two ways.  On `loopGraph` (well-formed, symmetric,
non-negative weights, one self-loop at vertex 0) with candidates `[0, 1]`,
`sweep_cut` returns the prefix `{0}` with conductance 1, while the textbook
conductance of `{0}` is `1/2`.  On `oneWayGraph` (well-formed, no self-loops,
non-negative weights, not symmetric) with candidates `[1, 0]`, `sweep_cut` returns
the prefix `{1, 0}` with conductance `-1`, while its textbook conductance is 0. -/
theorem sweep_cut_textbook_counterexample :
    (WellFormed loopGraph ∧ NonNegWeights loopGraph ∧ SymmetricGraph loopGraph ∧
      ValidIds loopGraph [0, 1] 2 ∧ DistinctIds [0, 1] 2 ∧
      ∃ r, sweep_cut loopGraph [0, 1] [9, 9] 2 none = some r ∧
        r.ret_cond = 1 ∧
        textbook_conductance loopGraph (prefix_set loopGraph [0, 1] r.actual_length) = 1 / 2) ∧
    (WellFormed oneWayGraph ∧ NonNegWeights oneWayGraph ∧ NoSelfLoops oneWayGraph ∧
      ValidIds oneWayGraph [1, 0] 2 ∧ DistinctIds [1, 0] 2 ∧
      ∃ r, sweep_cut oneWayGraph [1, 0] [9, 9] 2 none = some r ∧
        r.ret_cond = -1 ∧
        textbook_conductance oneWayGraph (prefix_set oneWayGraph [1, 0] r.actual_length) = 0) :=
  ⟨⟨by decide, by decide!, by decide!, by decide, by decide,
      { results := [0, 9], ret_cond := 1, actual_length := 1 }, by decide!, rfl, by decide!⟩,
    ⟨by decide, by decide!, by decide!, by decide, by decide,
      { results := [1, 0], ret_cond := -1, actual_length := 2 }, by decide!, rfl, by decide!⟩⟩

/-- C5, amended: for every well-formed CSR graph whose adjacency is symmetric and has
no self-loops, every sequence of `num ≥ 1` distinct valid candidate ids, and degrees
absent or equal to the true row sums, the conductance reported by `sweep_cut` equals
the textbook conductance `cut(S) / min(vol(S), vol(V \ S))` (1 when a volume is 0) of
the returned vertex set `S = ids[0..prefixLength)`. -/
theorem sweep_cut_textbook_conductance (rows : sparserow) (ids results : List Nat)
    (num : Nat) (degrees : Option (List ℚ)) (hnum : 1 ≤ num) (hwf : WellFormed rows)
    (hsym : SymmetricGraph rows) (hloop : NoSelfLoops rows) (hval : ValidIds rows ids num)
    (hdist : DistinctIds ids num) (htrue : TrueDegrees rows degrees) :
    ∃ r, sweep_cut rows ids results num degrees = some r ∧
      r.ret_cond = textbook_conductance rows (prefix_set rows ids r.actual_length) := by
  have hinj := injectiveIds_of_distinct rows ids num hdist (fun i hi => (hval.2 i hi).1)
  obtain ⟨i, hi, _, hr⟩ := sweep_cut_eq rows ids results num degrees hnum
  exact ⟨_, hr,
    prefix_cond_eq_textbook rows ids num degrees hwf hsym hloop hval hinj htrue i hi⟩

theorem sweep_cut_textbook_conductance_witness :
    (1 ≤ 4 ∧ WellFormed pathGraph ∧ SymmetricGraph pathGraph ∧ NoSelfLoops pathGraph ∧
      ValidIds pathGraph [0, 1, 2, 3] 4 ∧ DistinctIds [0, 1, 2, 3] 4 ∧
      TrueDegrees pathGraph (some [1, 2, 2, 1])) ∧
    ∃ r, sweep_cut pathGraph [0, 1, 2, 3] [9, 9, 9, 9] 4 (some [1, 2, 2, 1]) = some r ∧
      r.ret_cond = textbook_conductance pathGraph (prefix_set pathGraph [0, 1, 2, 3] r.actual_length) :=
  ⟨⟨by decide, by decide, by decide!, by decide!, by decide, by decide, by decide!⟩,
    sweep_cut_textbook_conductance pathGraph [0, 1, 2, 3] [9, 9, 9, 9] 4 (some [1, 2, 2, 1])
      (by decide) (by decide) (by decide!) (by decide!) (by decide) (by decide) (by decide!)⟩

/-! ## Base offset -/

theorem getD_map_succ_sub (l : List Nat) (i : Nat) :
    (l.map (fun x => x + 1)).getD i 0 - 1 = l.getD i 0 := by
  simp only [List.getD_eq_getElem?_getD, List.getElem?_map]
  cases l[i]? <;> simp

theorem get_degree_one_based (rows : sparserow) (hoff : rows.offset = 0) (v : Nat) :
    get_degree (one_based rows) v = get_degree rows v := by
  simp only [get_degree, one_based, getD_map_succ_sub, hoff, Nat.sub_zero]

theorem total_degree_one_based (rows : sparserow) (hoff : rows.offset = 0) :
    total_degree (one_based rows) = total_degree rows := by
  simp only [total_degree, one_based, getD_map_succ_sub, hoff, Nat.sub_zero]

theorem vertex_degree_one_based (rows : sparserow) (hoff : rows.offset = 0)
    (degrees : Option (List ℚ)) (v : Nat) :
    vertex_degree (one_based rows) degrees v = vertex_degree rows degrees v := by
  cases degrees with
  | none => exact get_degree_one_based rows hoff v
  | some d => rfl

theorem build_rank_one_based (rows : sparserow) (hoff : rows.offset = 0) (ids : List Nat)
    (num : Nat) :
    build_rank (one_based rows) (ids.map (fun x => x + 1)) num = build_rank rows ids num := by
  simp only [build_rank, one_based, getD_map_succ_sub, hoff, Nat.sub_zero]

theorem cut_change_one_based (rows : sparserow) (hoff : rows.offset = 0) (rank : RankMap)
    (v : Nat) (deg : ℚ) :
    cut_change (one_based rows) rank v deg = cut_change rows rank v deg := by
  simp only [cut_change, one_based, getD_map_succ_sub, hoff, Nat.sub_zero]

theorem sweep_loop_one_based (rows : sparserow) (hoff : rows.offset = 0) (ids : List Nat)
    (num : Nat) (degrees : Option (List ℚ)) (k : Nat) :
    sweep_loop (one_based rows) (ids.map (fun x => x + 1)) num degrees k
      = sweep_loop rows ids num degrees k := by
  unfold sweep_loop
  rw [build_rank_one_based rows hoff, total_degree_one_based rows hoff]
  apply forLoop_congr
  intro st i _
  have hv : (ids.map (fun x => x + 1)).getD i 0 - (one_based rows).offset
      = ids.getD i 0 - rows.offset := by
    rw [hoff, Nat.sub_zero]
    exact getD_map_succ_sub ids i
  unfold sweep_step
  simp only [hv, vertex_degree_one_based rows hoff, cut_change_one_based rows hoff]

theorem sweep_cut_of_loop_eq (rows rows2 : sparserow) (ids ids2 results results2 : List Nat)
    (num : Nat) (d d2 : Option (List ℚ)) (r : SweepResult)
    (hloop : sweep_loop rows2 ids2 num d2 num = sweep_loop rows ids num d num)
    (hr : sweep_cut rows ids results num d = some r) :
    sweep_cut rows2 ids2 results2 num d2
      = some { results := copy_results ids2 results2 (r.actual_length - 1)
               ret_cond := r.ret_cond
               actual_length := r.actual_length } := by
  unfold sweep_cut at hr ⊢
  simp only [hloop]
  cases hm : (sweep_loop rows ids num d num).min_id with
  | none => simp [hm] at hr
  | some i =>
    simp only [hm, Option.some.injEq] at hr
    subst hr
    simp

/-- C11: for a zero-based input (`offset = 0`) with `num ≥ 1` candidates present in
`ids` and output buffers of capacity at least `num`, `sweep_cut` on the one-based
version (every `ai` entry, `aj` entry and candidate id increased by 1, `offset = 1`,
same weights, same degree vector) returns the same length and the same conductance,
and its result ids are the zero-based result ids each increased by 1. -/
theorem sweep_cut_one_based (rows : sparserow) (ids results results1 : List Nat) (num : Nat)
    (degrees : Option (List ℚ)) (hoff : rows.offset = 0) (hnum : 1 ≤ num)
    (hids : num ≤ ids.length) (hcap : num ≤ results.length) (hcap1 : num ≤ results1.length) :
    ∃ r0 r1, sweep_cut rows ids results num degrees = some r0 ∧
      sweep_cut (one_based rows) (ids.map (fun x => x + 1)) results1 num degrees = some r1 ∧
      r1.actual_length = r0.actual_length ∧ r1.ret_cond = r0.ret_cond ∧
      r1.results.take r1.actual_length
        = (r0.results.take r0.actual_length).map (fun x => x + 1) := by
  obtain ⟨i, hi, _, hr⟩ := sweep_cut_eq rows ids results num degrees hnum
  have h1 := sweep_cut_of_loop_eq rows (one_based rows) ids (ids.map (fun x => x + 1))
    results results1 num degrees degrees _
    (sweep_loop_one_based rows hoff ids num degrees num) hr
  refine ⟨_, _, hr, h1, rfl, rfl, ?_⟩
  simp only [Nat.add_sub_cancel]
  rw [copy_results_eq _ results1 i (by simp; omega) (by omega),
    copy_results_eq ids results i (by omega) (by omega),
    List.take_append_of_le_length (by simp; omega),
    List.take_append_of_le_length (by simp; omega), List.take_take, List.take_take]
  simp [List.map_take]

theorem sweep_cut_one_based_witness :
    (pathGraph.offset = 0 ∧ 1 ≤ 4 ∧ 4 ≤ [0, 1, 2, 3].length ∧ 4 ≤ [9, 9, 9, 9].length ∧
      4 ≤ [7, 7, 7, 7, 7].length) ∧
    ∃ r0 r1, sweep_cut pathGraph [0, 1, 2, 3] [9, 9, 9, 9] 4 (some [1, 2, 2, 1]) = some r0 ∧
      sweep_cut (one_based pathGraph) ([0, 1, 2, 3].map (fun x => x + 1)) [7, 7, 7, 7, 7] 4
          (some [1, 2, 2, 1]) = some r1 ∧
      r1.actual_length = r0.actual_length ∧ r1.ret_cond = r0.ret_cond ∧
      r1.results.take r1.actual_length
        = (r0.results.take r0.actual_length).map (fun x => x + 1) :=
  ⟨by decide,
    sweep_cut_one_based pathGraph [0, 1, 2, 3] [9, 9, 9, 9] [7, 7, 7, 7, 7] 4
      (some [1, 2, 2, 1]) (by decide) (by decide) (by decide) (by decide) (by decide)⟩

/-! ## Total volume -/

theorem total_degree_eq_sum_of_mono (rows : sparserow)
    (h0 : rows.ai.getD 0 0 = rows.offset)
    (hmono : ∀ v, v < rows.m → rows.ai.getD v 0 ≤ rows.ai.getD (v + 1) 0) :
    total_degree rows = ∑ v in Finset.range rows.m, get_degree rows v := by
  unfold total_degree
  rw [forLoop_add_sum, list_sum_range', zero_add, Nat.sub_zero]
  have key : ∀ k, k ≤ rows.m →
      (∑ i in Finset.range (rows.ai.getD k 0 - rows.offset), rows.a.getD (0 + i) 0)
        = ∑ v in Finset.range k, get_degree rows v := by
    intro k
    induction k with
    | zero =>
      intro _
      rw [h0]
      simp
    | succ k ih =>
      intro hk
      have hm := hmono k (by omega)
      have hsplit : rows.ai.getD (k + 1) 0 - rows.offset
          = (rows.ai.getD k 0 - rows.offset)
            + ((rows.ai.getD (k + 1) 0 - rows.offset) - (rows.ai.getD k 0 - rows.offset)) := by
        omega
      rw [Finset.sum_range_succ, ← ih (by omega), get_degree_eq_sum]
      conv_lhs => rw [hsplit]
      rw [Finset.sum_range_add]
      simp
  exact key rows.m (le_refl _)

/-- C12, as stated, fails: `gapGraph` has a non-decreasing `ai`, `ai[m] - offset`
equal to the length of `aj` and of `a`, and in-range column indices, but its first row
offset is 1 while `offset = 0`; the total volume computed by `sweep_cut` is
`5 + 7 = 12`, and the sum of `get_degree` over its one vertex is 7. -/
theorem total_degree_counterexample :
    StatedInvariants gapGraph ∧
    (∀ j, j < gapGraph.aj.length →
      gapGraph.offset ≤ gapGraph.aj.getD j 0 ∧
        gapGraph.aj.getD j 0 < gapGraph.offset + gapGraph.m) ∧
    total_degree gapGraph = 12 ∧
    ((List.range gapGraph.m).map (get_degree gapGraph)).sum = 7 ∧
    total_degree gapGraph ≠ ((List.range gapGraph.m).map (get_degree gapGraph)).sum := by
  decide!

/-- C12, amended: for every graph whose `ai` starts at the base offset
(`ai[0] = offset`) and is non-decreasing over the `m` rows, the total volume computed by
`sweep_cut` (the sum of `a[0 .. ai[m] - offset)`) equals the sum over all vertices `v`
of `get_degree(graph, v)`. -/
theorem total_degree_eq_sum_get_degree (rows : sparserow)
    (h0 : rows.ai.getD 0 0 = rows.offset)
    (hmono : ∀ v, v < rows.m → rows.ai.getD v 0 ≤ rows.ai.getD (v + 1) 0) :
    total_degree rows = ((List.range rows.m).map (get_degree rows)).sum := by
  rw [list_sum_range]
  exact total_degree_eq_sum_of_mono rows h0 hmono

theorem total_degree_eq_sum_get_degree_witness :
    (loopGraph.ai.getD 0 0 = loopGraph.offset ∧
      ∀ v, v < loopGraph.m → loopGraph.ai.getD v 0 ≤ loopGraph.ai.getD (v + 1) 0) ∧
    total_degree loopGraph = ((List.range loopGraph.m).map (get_degree loopGraph)).sum :=
  ⟨by decide, total_degree_eq_sum_get_degree loopGraph (by decide) (by decide)⟩

/-! ## Degree override -/

theorem cut_change_eq_earlier_weight (rows : sparserow) (rank : RankMap) (v : Nat) (deg : ℚ) :
    cut_change rows rank v deg = deg - 2 * earlier_weight rows rank v := by
  rw [cut_change_eq_sum, earlier_weight, list_sum_range']

theorem list_sum_sub_two_mul (f g : Nat → ℚ) (l : List Nat) :
    (l.map (fun j => f j - 2 * g j)).sum = (l.map f).sum - 2 * (l.map g).sum := by
  induction l with
  | nil => simp
  | cons x xs ih =>
    simp only [List.map_cons, List.sum_cons, ih]
    ring

/-- C13: with a supplied degree vector `d` (true or not), the running volume after
position `i` is the sum of `d[ids[j] - offset]` for `j ≤ i`, and the running cut size
is that sum minus twice the weight of the row entries that point to earlier-ranked
candidates; the row sums of the CSR structure do not enter.  On the path graph with
candidates `[0, 1, 2, 3]` the incorrect vector `[2, 2, 2, 2]` gives length 4 and
conductance `-1`, while absent degrees give length 2 and conductance `1/3`. -/
theorem sweep_cut_degree_override (rows : sparserow) (ids : List Nat) (num : Nat)
    (d : List ℚ) (i : Nat) :
    ((sweep_loop rows ids num (some d) (i + 1)).curvolume
        = ((List.range (i + 1)).map (fun j => d.getD (ids.getD j 0 - rows.offset) 0)).sum ∧
      (sweep_loop rows ids num (some d) (i + 1)).curcutsize
        = ((List.range (i + 1)).map (fun j => d.getD (ids.getD j 0 - rows.offset) 0)).sum
          - 2 * ((List.range (i + 1)).map (fun j =>
              earlier_weight rows (build_rank rows ids num) (ids.getD j 0 - rows.offset))).sum) ∧
    sweep_cut pathGraph [0, 1, 2, 3] [9, 9, 9, 9] 4 (some [2, 2, 2, 2])
      = some { results := [0, 1, 2, 3], ret_cond := -1, actual_length := 4 } ∧
    sweep_cut pathGraph [0, 1, 2, 3] [9, 9, 9, 9] 4 none
      = some { results := [0, 1, 9, 9], ret_cond := 1 / 3, actual_length := 2 } := by
  refine ⟨⟨?_, ?_⟩, by decide!, by decide!⟩
  · rw [sweep_loop_curvolume]
    rfl
  · rw [sweep_loop_curcutsize, prefix_cut]
    simp only [cut_change_eq_earlier_weight, vertex_degree]
    exact list_sum_sub_two_mul _ _ _

/-! ## Frame of the output buffer -/

theorem copy_loop_frame (ids results : List Nat) (k : Nat) :
    (forLoop 0 k (fun res j => res.set j (ids.getD j 0)) results).length = results.length ∧
    ∀ j, k ≤ j →
      (forLoop 0 k (fun res j => res.set j (ids.getD j 0)) results)[j]? = results[j]? := by
  induction k with
  | zero => simp [forLoop]
  | succ k ih =>
    rw [forLoop_zero_succ]
    constructor
    · rw [List.length_set]
      exact ih.1
    · intro j hj
      rw [List.getElem?_set_ne (by omega)]
      exact ih.2 j (by omega)

/-- C14: a call of `sweep_cut` with `num ≥ 1` returns some length `k`, leaves the
length of the output buffer and every entry `results[j]` with `k ≤ j` as they were
before the call, and leaves the arrays `ids`, `ai`, `aj`, `a` and `degrees` unchanged. -/
theorem sweep_cut_frame (mem : CallerMemory) (m n offset num : Nat) (hnum : 1 ≤ num) :
    ∃ mem2 k, sweep_cut_call mem m n offset num = some (mem2, k) ∧
      mem2.results.length = mem.results.length ∧
      (∀ j, k ≤ j → mem2.results[j]? = mem.results[j]?) ∧
      mem2.ids = mem.ids ∧ mem2.ai = mem.ai ∧ mem2.aj = mem.aj ∧ mem2.a = mem.a ∧
      mem2.degrees = mem.degrees := by
  obtain ⟨i, _, _, hr⟩ :=
    sweep_cut_eq { m := m, n := n, ai := mem.ai, aj := mem.aj, a := mem.a, offset := offset }
      mem.ids mem.results num mem.degrees hnum
  have hf := copy_loop_frame mem.ids mem.results (i + 1)
  refine ⟨{ mem with
      results := copy_results mem.ids mem.results i
      ret_cond := prefix_cond
        { m := m, n := n, ai := mem.ai, aj := mem.aj, a := mem.a, offset := offset }
        mem.ids num mem.degrees i },
    i + 1, by simp only [sweep_cut_call, hr], hf.1, hf.2, rfl, rfl, rfl, rfl, rfl⟩

theorem sweep_cut_frame_witness :
    1 ≤ 3 ∧
    ∃ mem2 k,
      sweep_cut_call
          { ids := [0, 1, 2], results := [9, 8, 7, 6, 5], ai := [0, 1, 3, 5, 6],
            aj := [1, 0, 2, 1, 3, 2], a := [1, 1, 1, 1, 1, 1], degrees := none, ret_cond := 0 }
          4 4 0 3 = some (mem2, k) ∧
      mem2.results.length = [9, 8, 7, 6, 5].length ∧
      (∀ j, k ≤ j → mem2.results[j]? = [9, 8, 7, 6, 5][j]?) ∧
      mem2.ids = [0, 1, 2] ∧ mem2.ai = [0, 1, 3, 5, 6] ∧ mem2.aj = [1, 0, 2, 1, 3, 2] ∧
      mem2.a = [1, 1, 1, 1, 1, 1] ∧ mem2.degrees = none :=
  ⟨by decide,
    sweep_cut_frame
      { ids := [0, 1, 2], results := [9, 8, 7, 6, 5], ai := [0, 1, 3, 5, 6],
        aj := [1, 0, 2, 1, 3, 2], a := [1, 1, 1, 1, 1, 1], degrees := none, ret_cond := 0 }
      4 4 0 3 (by decide)⟩

/-! ## A single candidate -/

/-- C15: for every graph, every id `v`, every degrees argument and every output buffer
with room for one entry, `sweep_cut` with `num = 1` and the candidate sequence `[v]`
returns length 1 and writes `v` to `results[0]`, whatever the conductance of the
single-vertex prefix is. -/
theorem sweep_cut_single (rows : sparserow) (v : Nat) (results : List Nat)
    (degrees : Option (List ℚ)) (hcap : 1 ≤ results.length) :
    ∃ r, sweep_cut rows [v] results 1 degrees = some r ∧
      r.actual_length = 1 ∧ r.results.take 1 = [v] ∧
      r.ret_cond = prefix_cond rows [v] 1 degrees 0 := by
  obtain ⟨i, hi, _, hr⟩ := sweep_cut_eq rows [v] results 1 degrees (le_refl 1)
  have hi0 : i = 0 := by omega
  subst hi0
  refine ⟨_, hr, rfl, ?_, rfl⟩
  simp only
  rw [copy_results_eq [v] results 0 (by simp) (by omega)]
  simp

theorem sweep_cut_single_witness :
    1 ≤ [9, 9].length ∧
    ∃ r, sweep_cut pathGraph [2] [9, 9] 1 (some [5, 0, 7, 1]) = some r ∧
      r.actual_length = 1 ∧ r.results.take 1 = [2] ∧
      r.ret_cond = prefix_cond pathGraph [2] 1 (some [5, 0, 7, 1]) 0 :=
  ⟨by decide, sweep_cut_single pathGraph 2 [9, 9] (some [5, 0, 7, 1]) (by decide)⟩

theorem get_degree_empty_row (rows : sparserow) (u : Nat)
    (hrow : rows.ai.getD (u + 1) 0 = rows.ai.getD u 0) : get_degree rows u = 0 := by
  unfold get_degree forLoop
  rw [hrow, Nat.sub_self]
  rfl

/-- C16: for every graph and every id `v` whose row is empty
(`ai[v - offset + 1] = ai[v - offset]`), `sweep_cut` with the sole candidate `[v]` and
degrees absent returns length 1 and conductance exactly 1; this covers a graph
without edges. -/
theorem sweep_cut_isolated (rows : sparserow) (v : Nat) (results : List Nat)
    (hrow : rows.ai.getD (v - rows.offset + 1) 0 = rows.ai.getD (v - rows.offset) 0) :
    ∃ r, sweep_cut rows [v] results 1 none = some r ∧
      r.actual_length = 1 ∧ r.ret_cond = 1 := by
  obtain ⟨i, hi, _, hr⟩ := sweep_cut_eq rows [v] results 1 none (le_refl 1)
  have hi0 : i = 0 := by omega
  subst hi0
  refine ⟨_, hr, rfl, ?_⟩
  have hvol : prefix_volume rows [v] none 0 = 0 := by
    have hd := get_degree_empty_row rows _ hrow
    have hr1 : List.range (0 + 1) = [0] := rfl
    simp only [prefix_volume, vertex_degree, hr1, List.map_cons, List.map_nil,
      List.sum_cons, List.sum_nil, add_zero]
    exact hd
  simp only [prefix_cond, cur_cond, hvol]
  simp

theorem sweep_cut_isolated_witness :
    edgelessGraph.ai.getD (1 - edgelessGraph.offset + 1) 0
      = edgelessGraph.ai.getD (1 - edgelessGraph.offset) 0 ∧
    ∃ r, sweep_cut edgelessGraph [1] [9] 1 none = some r ∧
      r.actual_length = 1 ∧ r.ret_cond = 1 :=
  ⟨by decide, sweep_cut_isolated edgelessGraph 1 [9] (by decide)⟩

/-! ## Self-loops -/

theorem not_earlier_self (rank : RankMap) (v : Nat) : ¬ earlier rank v v := by
  intro h
  exact absurd h.2 (lt_irrefl _)

/-- C17: for pairwise different candidate ids, each at least `offset`, the cut delta
added at the turn of `v = ids[i]` equals `deg(v)` minus twice the total weight of the
row entries of `v` whose neighbor is a candidate `u ≠ v` placed earlier than `v`; and
for every rank map the test of the inner loop fails for a row entry `(v, v)`, so a
self-loop never reduces the delta and its weight stays in both `curvolume` and
`curcutsize`. -/
theorem cut_change_skips_self_loops (rows : sparserow) (ids : List Nat) (num : Nat)
    (deg : ℚ) (i : Nat) (hdist : DistinctIds ids num)
    (hoff : ∀ p, p < num → rows.offset ≤ ids.getD p 0) (hi : i < num) :
    cut_change rows (build_rank rows ids num) (ids.getD i 0 - rows.offset) deg
        = deg - 2 * earlier_neighbor_weight rows ids i ∧
    (∀ rank : RankMap, ¬ earlier rank (ids.getD i 0 - rows.offset)
      (ids.getD i 0 - rows.offset)) ∧
    (sweep_step rows ids none (build_rank rows ids num) (total_degree rows)
        (sweep_loop rows ids num none i) i).curcutsize
      = (sweep_loop rows ids num none i).curcutsize
        + (get_degree rows (ids.getD i 0 - rows.offset)
            - 2 * earlier_neighbor_weight rows ids i) := by
  have hinj := injectiveIds_of_distinct rows ids num hdist hoff
  have hcc : ∀ deg : ℚ,
      cut_change rows (build_rank rows ids num) (ids.getD i 0 - rows.offset) deg
        = deg - 2 * earlier_neighbor_weight rows ids i := by
    intro deg
    rw [cut_change_eq_earlier_weight, earlier_weight, earlier_neighbor_weight]
    congr 3
    apply List.map_congr_left
    intro j _
    have h1 := earlier_iff rows ids num hinj i hi (rows.aj.getD j 0 - rows.offset)
    by_cases he : earlier (build_rank rows ids num) (rows.aj.getD j 0 - rows.offset)
        (ids.getD i 0 - rows.offset)
    · have hne : rows.aj.getD j 0 - rows.offset ≠ ids.getD i 0 - rows.offset := by
        intro heq
        rw [heq] at he
        exact not_earlier_self _ _ he
      rw [if_pos he, if_pos ⟨h1.mp he, hne⟩]
    · rw [if_neg he, if_neg (fun h => he (h1.mpr h.1))]
  refine ⟨hcc deg, fun rank => not_earlier_self rank _, ?_⟩
  rw [sweep_step_curcutsize, hcc]
  rfl

theorem cut_change_skips_self_loops_witness :
    (DistinctIds [1, 0, 2] 3 ∧ (∀ p, p < 3 → loopGraph.offset ≤ [1, 0, 2].getD p 0) ∧ 1 < 3) ∧
    (cut_change loopGraph (build_rank loopGraph [1, 0, 2] 3)
          ([1, 0, 2].getD 1 0 - loopGraph.offset) 2
        = 2 - 2 * earlier_neighbor_weight loopGraph [1, 0, 2] 1 ∧
      (∀ rank : RankMap, ¬ earlier rank ([1, 0, 2].getD 1 0 - loopGraph.offset)
        ([1, 0, 2].getD 1 0 - loopGraph.offset)) ∧
      (sweep_step loopGraph [1, 0, 2] none (build_rank loopGraph [1, 0, 2] 3)
          (total_degree loopGraph) (sweep_loop loopGraph [1, 0, 2] 3 none 1) 1).curcutsize
        = (sweep_loop loopGraph [1, 0, 2] 3 none 1).curcutsize
          + (get_degree loopGraph ([1, 0, 2].getD 1 0 - loopGraph.offset)
              - 2 * earlier_neighbor_weight loopGraph [1, 0, 2] 1)) :=
  ⟨by decide,
    cut_change_skips_self_loops loopGraph [1, 0, 2] 3 2 1 (by decide) (by decide) (by decide)⟩

/-! ## The loop invariant as a claim -/

/-- C18: for a well-formed graph with symmetric adjacency, distinct valid candidate
ids and degrees absent or true, after position `i < num` has been processed the
running volume is the sum of the weighted degrees of `S_i = {ids[0..i]}`, and the
running cut size is the total weight of the row entries from `S_i` to vertices
outside `S_i` plus the total self-loop weight of the vertices in `S_i`. -/
theorem sweep_loop_invariant (rows : sparserow) (ids : List Nat) (num : Nat)
    (degrees : Option (List ℚ)) (i : Nat) (hwf : WellFormed rows)
    (hsym : SymmetricGraph rows) (hval : ValidIds rows ids num) (hdist : DistinctIds ids num)
    (htrue : TrueDegrees rows degrees) (hi : i < num) :
    (sweep_loop rows ids num degrees (i + 1)).curvolume
        = volume rows (prefix_set rows ids (i + 1)) ∧
    (sweep_loop rows ids num degrees (i + 1)).curcutsize
        = cut_weight rows (prefix_set rows ids (i + 1))
          + self_loop_weight rows (prefix_set rows ids (i + 1)) := by
  have hinj := injectiveIds_of_distinct rows ids num hdist (fun p hp => (hval.2 p hp).1)
  have hsub := prefix_set_subset rows ids num hval (i + 1) (by omega)
  constructor
  · rw [sweep_loop_curvolume, prefix_volume,
      running_volume rows ids num degrees hwf hval hinj htrue (i + 1) (by omega),
      volume_eq_sum rows _ hsub]
  · rw [sweep_loop_curcutsize, prefix_cut,
      running_cut rows ids num degrees hwf hsym hval hinj htrue (i + 1) (by omega),
      cut_weight_eq_sum rows _ hsub, self_loop_weight, list_sum_range,
      sum_ite_mem_list _ _ _ hsub]

theorem sweep_loop_invariant_witness :
    (WellFormed loopGraph ∧ SymmetricGraph loopGraph ∧ ValidIds loopGraph [1, 0, 2] 3 ∧
      DistinctIds [1, 0, 2] 3 ∧ TrueDegrees loopGraph none ∧ 1 < 3) ∧
    ((sweep_loop loopGraph [1, 0, 2] 3 none (1 + 1)).curvolume
        = volume loopGraph (prefix_set loopGraph [1, 0, 2] (1 + 1)) ∧
      (sweep_loop loopGraph [1, 0, 2] 3 none (1 + 1)).curcutsize
        = cut_weight loopGraph (prefix_set loopGraph [1, 0, 2] (1 + 1))
          + self_loop_weight loopGraph (prefix_set loopGraph [1, 0, 2] (1 + 1))) :=
  ⟨⟨by decide, by decide!, by decide, by decide, by decide, by decide⟩,
    sweep_loop_invariant loopGraph [1, 0, 2] 3 none 1 (by decide) (by decide!) (by decide)
      (by decide) (by decide) (by decide)⟩

/-! ## Range of the conductance -/

theorem getD_weight_nonneg (rows : sparserow) (hnn : NonNegWeights rows) (j : Nat) :
    0 ≤ rows.a.getD j 0 := by
  by_cases hj : j < rows.a.length
  · exact hnn j hj
  · rw [List.getD_eq_getElem?_getD, List.getElem?_eq_none (by omega)]
    exact le_refl _

theorem edge_weight_nonneg (rows : sparserow) (hnn : NonNegWeights rows) (v u : Nat) :
    0 ≤ edge_weight rows v u := by
  rw [edge_weight_eq_sum]
  apply Finset.sum_nonneg
  intro i _
  split
  · exact getD_weight_nonneg rows hnn _
  · exact le_refl _

theorem weighted_degree_eq_sum (rows : sparserow) (v : Nat) :
    weighted_degree rows v = ∑ u in Finset.range rows.m, edge_weight rows v u := by
  rw [weighted_degree, list_sum_range]

theorem cut_nonneg (rows : sparserow) (hnn : NonNegWeights rows) (S : List Nat)
    (h : S.toFinset ⊆ Finset.range rows.m) : 0 ≤ cut_weight rows S := by
  rw [cut_weight_eq_sum rows S h]
  exact Finset.sum_nonneg
    (fun v _ => Finset.sum_nonneg (fun u _ => edge_weight_nonneg rows hnn v u))

theorem volume_nonneg (rows : sparserow) (hnn : NonNegWeights rows) (S : List Nat)
    (h : S.toFinset ⊆ Finset.range rows.m) : 0 ≤ volume rows S := by
  rw [volume_eq_sum rows S h]
  apply Finset.sum_nonneg
  intro v _
  rw [weighted_degree_eq_sum]
  exact Finset.sum_nonneg (fun u _ => edge_weight_nonneg rows hnn v u)

theorem complement_volume_nonneg (rows : sparserow) (hnn : NonNegWeights rows)
    (S : List Nat) : 0 ≤ complement_volume rows S := by
  rw [complement_volume_eq_sum rows S]
  apply Finset.sum_nonneg
  intro v _
  rw [weighted_degree_eq_sum]
  exact Finset.sum_nonneg (fun u _ => edge_weight_nonneg rows hnn v u)

theorem cut_le_volume (rows : sparserow) (hnn : NonNegWeights rows) (S : List Nat)
    (h : S.toFinset ⊆ Finset.range rows.m) : cut_weight rows S ≤ volume rows S := by
  rw [cut_weight_eq_sum rows S h, volume_eq_sum rows S h]
  apply Finset.sum_le_sum
  intro v _
  rw [weighted_degree_eq_sum]
  exact Finset.sum_le_sum_of_subset_of_nonneg Finset.sdiff_subset
    (fun u _ _ => edge_weight_nonneg rows hnn v u)

theorem cut_le_complement_volume (rows : sparserow) (hnn : NonNegWeights rows)
    (hsym : SymmetricGraph rows) (S : List Nat) (h : S.toFinset ⊆ Finset.range rows.m) :
    cut_weight rows S ≤ complement_volume rows S := by
  rw [cut_weight_eq_sum rows S h, complement_volume_eq_sum rows S, Finset.sum_comm]
  apply Finset.sum_le_sum
  intro u hu
  have hum : u < rows.m := Finset.mem_range.mp (Finset.mem_sdiff.mp hu).1
  rw [weighted_degree_eq_sum]
  have hswap : ∑ v in S.toFinset, edge_weight rows v u
      = ∑ v in S.toFinset, edge_weight rows u v := by
    apply Finset.sum_congr rfl
    intro v hv
    exact hsym v (Finset.mem_range.mp (h hv)) u hum
  rw [hswap]
  exact Finset.sum_le_sum_of_subset_of_nonneg h
    (fun v _ _ => edge_weight_nonneg rows hnn u v)

theorem textbook_conductance_range (rows : sparserow) (hnn : NonNegWeights rows)
    (hsym : SymmetricGraph rows) (S : List Nat) (h : S.toFinset ⊆ Finset.range rows.m) :
    0 ≤ textbook_conductance rows S ∧ textbook_conductance rows S ≤ 1 := by
  unfold textbook_conductance
  split
  · exact ⟨zero_le_one, le_refl _⟩
  · rename_i hz
    have hV : volume rows S ≠ 0 := fun h0 => hz (Or.inl h0)
    have hC : complement_volume rows S ≠ 0 := fun h0 => hz (Or.inr h0)
    have hVpos : 0 < volume rows S :=
      lt_of_le_of_ne (volume_nonneg rows hnn S h) (Ne.symm hV)
    have hCpos : 0 < complement_volume rows S :=
      lt_of_le_of_ne (complement_volume_nonneg rows hnn S) (Ne.symm hC)
    have hmin : 0 < min (volume rows S) (complement_volume rows S) := lt_min hVpos hCpos
    constructor
    · exact div_nonneg (cut_nonneg rows hnn S h) (le_of_lt hmin)
    · rw [div_le_one hmin]
      exact le_min (cut_le_volume rows hnn S h)
        (cut_le_complement_volume rows hnn hsym S h)

/-- The range of the conductance in exact arithmetic: for a well-formed graph with
symmetric adjacency, non-negative weights and no self-loops, `num ≥ 1` distinct valid
candidate ids, and degrees absent or equal to the true row sums, every per-prefix
conductance of the exact embedding lies in `[0, 1]`, and `sweep_cut` returns a
conductance in `[0, 1]`, different from `-1`. -/
theorem sweep_cut_cond_range (rows : sparserow) (ids results : List Nat) (num : Nat)
    (degrees : Option (List ℚ)) (hnum : 1 ≤ num) (hwf : WellFormed rows)
    (hnn : NonNegWeights rows) (hsym : SymmetricGraph rows) (hloop : NoSelfLoops rows)
    (hval : ValidIds rows ids num) (hdist : DistinctIds ids num)
    (htrue : TrueDegrees rows degrees) :
    (∀ i, i < num → 0 ≤ prefix_cond rows ids num degrees i ∧
      prefix_cond rows ids num degrees i ≤ 1) ∧
    ∃ r, sweep_cut rows ids results num degrees = some r ∧
      0 ≤ r.ret_cond ∧ r.ret_cond ≤ 1 ∧ r.ret_cond ≠ -1 := by
  have hinj := injectiveIds_of_distinct rows ids num hdist (fun p hp => (hval.2 p hp).1)
  have hall : ∀ i, i < num → 0 ≤ prefix_cond rows ids num degrees i ∧
      prefix_cond rows ids num degrees i ≤ 1 := by
    intro i hi
    rw [prefix_cond_eq_textbook rows ids num degrees hwf hsym hloop hval hinj htrue i hi]
    exact textbook_conductance_range rows hnn hsym _
      (prefix_set_subset rows ids num hval (i + 1) (by omega))
  obtain ⟨i, hi, _, hr⟩ := sweep_cut_eq rows ids results num degrees hnum
  refine ⟨hall, _, hr, (hall i hi).1, (hall i hi).2, ?_⟩
  intro hneg
  have h0 := (hall i hi).1
  simp only at hneg
  rw [hneg] at h0
  norm_num at h0

theorem sweep_cut_cond_range_witness :
    (1 ≤ 4 ∧ WellFormed pathGraph ∧ NonNegWeights pathGraph ∧ SymmetricGraph pathGraph ∧
      NoSelfLoops pathGraph ∧ ValidIds pathGraph [3, 1, 0, 2] 4 ∧ DistinctIds [3, 1, 0, 2] 4 ∧
      TrueDegrees pathGraph none) ∧
    ((∀ i, i < 4 → 0 ≤ prefix_cond pathGraph [3, 1, 0, 2] 4 none i ∧
        prefix_cond pathGraph [3, 1, 0, 2] 4 none i ≤ 1) ∧
      ∃ r, sweep_cut pathGraph [3, 1, 0, 2] [9, 9, 9, 9] 4 none = some r ∧
        0 ≤ r.ret_cond ∧ r.ret_cond ≤ 1 ∧ r.ret_cond ≠ -1) :=
  ⟨⟨by decide, by decide, by decide!, by decide!, by decide!, by decide, by decide,
      by decide⟩,
    sweep_cut_cond_range pathGraph [3, 1, 0, 2] [9, 9, 9, 9] 4 none (by decide) (by decide)
      (by decide!) (by decide!) (by decide!) (by decide) (by decide) (by decide)⟩

/-! ## The sweep in `double` arithmetic -/

theorem sweep_cut_fp_id (rows : sparserow) (ids results : List Nat) (num : Nat)
    (degrees : Option (List ℚ)) :
    sweep_cut_fp (fun x => x) rows ids results num degrees
      = sweep_cut rows ids results num degrees := by
  have hv : ∀ v, vertex_degree_fp (fun x => x) rows degrees v = vertex_degree rows degrees v := by
    intro v
    cases degrees <;> rfl
  have hc : ∀ rank v deg, cut_change_fp (fun x => x) rows rank v deg
      = cut_change rows rank v deg := fun _ _ _ => rfl
  have hq : ∀ c v t, cur_cond_fp (fun x => x) c v t = cur_cond c v t := fun _ _ _ => rfl
  have hstep : ∀ rank total,
      sweep_step_fp (fun x => x) rows ids degrees rank total
        = sweep_step rows ids degrees rank total := by
    intro rank total
    funext st i
    unfold sweep_step_fp sweep_step
    simp only [hv, hc, hq]
  have ht : total_degree_fp (fun x => x) rows = total_degree rows := rfl
  have hloop : sweep_loop_fp (fun x => x) rows ids num degrees num
      = sweep_loop rows ids num degrees num := by
    unfold sweep_loop_fp sweep_loop
    rw [ht, hstep]
  unfold sweep_cut_fp sweep_cut
  rw [hloop]

/-- C19 fails on the code.  `tenthPathGraph` (path 0-1-2-3, every weight the `double`
nearest 0.1) and `triangleGraph` (weights 0.1, 0.1, 0.7) are well-formed, symmetric,
without self-loops and with non-negative weights, and the candidates are distinct and
valid.  In `double` arithmetic `sweep_cut` returns length 4 and conductance `-1/4` on
the path with candidates `[0, 2, 3, 1]`, and length 3 and conductance exactly `-1` on
the triangle with candidates `[0, 1, 2]`: the rounded `curvolume` of the full set
differs from the rounded `total_degree`, so the test `total_degree - curvolume == 0`
fails and the quotient has a negative denominator.  In exact arithmetic both calls
return length 1 and conductance 1. -/
theorem sweep_cut_double_cond_out_of_range :
    (WellFormed tenthPathGraph ∧ NonNegWeights tenthPathGraph ∧
      SymmetricGraph tenthPathGraph ∧ NoSelfLoops tenthPathGraph ∧
      ValidIds tenthPathGraph [0, 2, 3, 1] 4 ∧ DistinctIds [0, 2, 3, 1] 4) ∧
    (WellFormed triangleGraph ∧ NonNegWeights triangleGraph ∧
      SymmetricGraph triangleGraph ∧ NoSelfLoops triangleGraph ∧
      ValidIds triangleGraph [0, 1, 2] 3 ∧ DistinctIds [0, 1, 2] 3) ∧
    total_degree_fp round_double tenthPathGraph = round_double (6 / 10) ∧
    (sweep_loop_fp round_double tenthPathGraph [0, 2, 3, 1] 4 none 4).curvolume
      = round_double (6 / 10) + 1 / 2 ^ 53 ∧
    (sweep_loop_fp round_double tenthPathGraph [0, 2, 3, 1] 4 none 4).curcutsize
      = 1 / 2 ^ 55 ∧
    sweep_cut_fp round_double tenthPathGraph [0, 2, 3, 1] [9, 9, 9, 9] 4 none
      = some { results := [0, 2, 3, 1], ret_cond := -1 / 4, actual_length := 4 } ∧
    sweep_cut_fp round_double triangleGraph [0, 1, 2] [9, 9, 9] 3 none
      = some { results := [0, 1, 2], ret_cond := -1, actual_length := 3 } ∧
    sweep_cut tenthPathGraph [0, 2, 3, 1] [9, 9, 9, 9] 4 none
      = some { results := [0, 9, 9, 9], ret_cond := 1, actual_length := 1 } ∧
    sweep_cut triangleGraph [0, 1, 2] [9, 9, 9] 3 none
      = some { results := [0, 9, 9], ret_cond := 1, actual_length := 1 } := by
  refine ⟨by decide!, by decide!, by decide!, by decide!, by decide!, by decide!,
    by decide!, by decide!, by decide!⟩

end SweepCut
